import Mathlib

/-!
Verification of the EigenDA dispersal batcher specification against the
repository sources.

This file embeds, in Lean 4, the parts of the EigenDA repository that the
frozen claims are about:

* the FFT-based sample-recovery core (`RecoverPolyFromSamples` and its
  supporting zero-polynomial / FFT machinery) — the implementation itself is
  not among the provided sources (only its test file is), so it is modelled
  from the specification, section 4.D;
* the `EncodingStreamer` pipeline of `disperser/batcher/encoding_streamer.go`
  (dedup, per-quorum request issuing, the encoded-size notifier, and
  `CreateBatch`);
* the caching `Encoder.Encode` wrapper and its `hashBlob` cache key.

Definitions are translated from the Go sources where those exist; external
collaborators (chain state, assignment coordinator, encoder client, merkle
tree) are abstracted as oracle parameters, as the spec treats them as
consumed interfaces.
-/

namespace EigenDA

namespace Recovery

variable {F : Type} [Field F]

/-- Evaluation of a coefficient list (low-to-high degree) at a point, in
Horner form.  This is the "Polynomial: ordered sequence of Fr" data model of
the spec, section 3. -/
def evalList : List F → F → F
  | [], _ => 0
  | a :: as, x => a + x * evalList as x

/-- Coefficient-wise addition of two coefficient lists (shorter list padded
with zeros). -/
def polyAddL : List F → List F → List F
  | [], q => q
  | p, [] => p
  | a :: as, b :: bs => (a + b) :: polyAddL as bs

/-- Multiply every coefficient by a scalar. -/
def scaleL (c : F) (l : List F) : List F := l.map (fun a => c * a)

/-- Multiply a coefficient list by the linear factor `(x - r)`. -/
def mulByRoot (r : F) (l : List F) : List F := polyAddL (scaleL (-r) l) (0 :: l)

/-- Modelled from the spec: the zero polynomial `Z(x) = ∏_{i ∈ M} (x - ω^i)`
of section 4.C (`ZeroPolyViaMultiplication`), built by multiplying the linear
factors of the given roots.  The divide-and-conquer grouping of the Go
implementation computes the same product; the implementation file is not
among the provided sources. -/
def zpolyL (roots : List F) : List F := roots.foldr mulByRoot [1]

/-- Plain (non-cyclic) polynomial multiplication on coefficient lists. -/
def polyMulL : List F → List F → List F
  | [], _ => []
  | a :: as, q => polyAddL (scaleL a q) (0 :: polyMulL as q)

/-- Evaluation of a length-`n` coefficient vector at a point. -/
def polyEvalV (n : ℕ) (c : Fin n → F) (x : F) : F :=
  ∑ j : Fin n, c j * x ^ (j : ℕ)

/-- Modelled from the spec: the forward FFT contract of section 4.B — output
`i` is the evaluation of the input, read as coefficients, at `ω^i`.  The
Cooley–Tukey butterfly of the (absent) implementation computes exactly these
values; the spec's contract `FFT(FFT(x, false), true) == x` is proved below
as `idft_dft`. -/
def dft (n : ℕ) (ω : F) (c : Fin n → F) : Fin n → F :=
  fun i => polyEvalV n c (ω ^ (i : ℕ))

/-- Modelled from the spec: the inverse FFT of section 4.B — the forward
transform with the inverse root table, scaled by `n⁻¹`. -/
def idft (n : ℕ) (ω : F) (d : Fin n → F) : Fin n → F :=
  fun j => (n : F)⁻¹ * ∑ i : Fin n, d i * (ω⁻¹) ^ ((i : ℕ) * (j : ℕ))

/-- The indices at which a partial evaluation vector is missing
(`M = {i : S[i] missing}` of spec section 4.D, step 1). -/
def missingIdx (n : ℕ) (S : Fin n → Option F) : List (Fin n) :=
  (List.finRange n).filter (fun i => (S i).isNone)

/-- The zero polynomial of the missing set, as a coefficient list
(spec 4.D step 2 / 4.C). -/
def zListOf (n : ℕ) (ω : F) (S : Fin n → Option F) : List F :=
  zpolyL ((missingIdx n S).map (fun i : Fin n => ω ^ (i : ℕ)))

/-- The zero polynomial padded to a width-`n` coefficient vector. -/
def zVecOf (n : ℕ) (ω : F) (S : Fin n → Option F) : Fin n → F :=
  fun j => (zListOf n ω S).getD (j : ℕ) 0

/-- Spec 4.D step 3: `P'_eval[i] = S[i] · Z_eval[i]` for known `i`, else `0`
(`(S i).getD 0` is `0` at missing positions, so the single formula covers
both cases). -/
def pPrimeEvalOf (n : ℕ) (ω : F) (S : Fin n → Option F) : Fin n → F :=
  fun i => (S i).getD 0 * dft n ω (zVecOf n ω S) i

/-- Spec 4.D step 3: inverse-FFT `P'_eval` to get `P'(x)` in coefficient
form. -/
def pPrimeCoeffsOf (n : ℕ) (ω : F) (S : Fin n → Option F) : Fin n → F :=
  idft n ω (pPrimeEvalOf n ω S)

/-- Spec 4.D step 4: evaluate `P'` on the coset — multiply coefficients with
powers of the coset generator `kShift`, then FFT. -/
def pPrimeCosetOf (n : ℕ) (ω kShift : F) (S : Fin n → Option F) : Fin n → F :=
  dft n ω (fun j => pPrimeCoeffsOf n ω S j * kShift ^ (j : ℕ))

/-- Spec 4.D step 4: the zero polynomial evaluated on the coset. -/
def zCosetOf (n : ℕ) (ω kShift : F) (S : Fin n → Option F) : Fin n → F :=
  dft n ω (fun j => zVecOf n ω S j * kShift ^ (j : ℕ))

/-- Spec 4.D step 5: pointwise division on the coset. -/
def dCosetOf (n : ℕ) (ω kShift : F) (S : Fin n → Option F) : Fin n → F :=
  fun i => pPrimeCosetOf n ω kShift S i / zCosetOf n ω kShift S i

/-- Spec 4.D step 6: inverse-FFT the coset values and undo the coset shift,
recovering `D(x) = P(x)` in coefficient form. -/
def dCoeffsOf (n : ℕ) (ω kShift : F) (S : Fin n → Option F) : Fin n → F :=
  fun j => idft n ω (dCosetOf n ω kShift S) j * (kShift⁻¹) ^ (j : ℕ)

/-- Spec 4.D step 7: FFT `D(x)` to obtain the full evaluation vector. -/
def recoveredEvalOf (n : ℕ) (ω kShift : F) (S : Fin n → Option F) : Fin n → F :=
  dft n ω (dCoeffsOf n ω kShift S)

/-- Modelled from the spec: `RecoverPolyFromSamples` of section 4.D (the Go
implementation in `pkg/kzg` is not among the provided sources; only its test
file is).  Input: a partial evaluation vector of width `n`; output: the full
evaluation vector, or `none` on the spec's failure conditions — more than
`MaxWidth/2` indices missing, field inversion failure (a zero denominator on
the coset), or failure of the final consistency check `E[i] == S[i]` for
known `i`.  If nothing is missing the input is returned directly
(spec 4.D step 1). -/
def recoverPolyFromSamples [DecidableEq F] (n : ℕ) (ω kShift : F)
    (S : Fin n → Option F) : Option (Fin n → F) :=
  if (missingIdx n S).length = 0 then some (fun i => (S i).getD 0)
  else if n / 2 < (missingIdx n S).length then none
  else if (∃ i : Fin n, zCosetOf n ω kShift S i = 0) then none
  else if (∀ i : Fin n, (S i).isSome = true →
      (S i).getD 0 = recoveredEvalOf n ω kShift S i) then
    some (recoveredEvalOf n ω kShift S)
  else none


/-- The low half of the coefficient vector, as a list of length `n / 2`
(proof scaffolding for the degree bound of the product polynomial). -/
def pHalfOf (n : ℕ) (p : Fin n → F) : List F :=
  (List.range (n / 2)).map (fun j => if h : j < n then p ⟨j, h⟩ else 0)

/-- The product polynomial `p · Z` as a coefficient list (proof
scaffolding: the algorithm's `P'` below equals this by DFT inversion). -/
def prodListOf (n : ℕ) (ω : F) (S : Fin n → Option F) (p : Fin n → F) : List F :=
  polyMulL (pHalfOf n p) (zListOf n ω S)

/-- The product polynomial padded to a width-`n` coefficient vector. -/
def prodVecOf (n : ℕ) (ω : F) (S : Fin n → Option F) (p : Fin n → F) : Fin n → F :=
  fun j => (prodListOf n ω S p).getD (j : ℕ) 0

end Recovery

namespace Recovery

instance : Fact (Nat.Prime 13) := ⟨by norm_num⟩

/-- The witness coefficient vector of scenario S1: `[0, 1, 0, 0]`, second
half zero, over a small prime field admitting a primitive 4th root of
unity (5) and a coset shift (2) with `2^4 ≠ 1`. -/
def c1p : Fin 4 → ZMod 13 := ![0, 1, 0, 0]

/-- The witness partial evaluation vector: the forward FFT of `c1p` with
positions 1 and 2 erased (scenario S1's `[d0, *, *, d3]`). -/
def c1S : Fin 4 → Option (ZMod 13) :=
  ![some (dft 4 5 c1p 0), none, none, some (dft 4 5 c1p 3)]

end Recovery

end EigenDA

namespace EigenDA

/-- Decidable equality for `Except`, needed to evaluate the concrete
witnesses and counterexamples. -/
instance {ε α : Type} [DecidableEq ε] [DecidableEq α] : DecidableEq (Except ε α) :=
  fun a b =>
    match a, b with
    | Except.error e1, Except.error e2 =>
      if h : e1 = e2 then Decidable.isTrue (by rw [h])
      else Decidable.isFalse (by intro hh; cases hh; exact h rfl)
    | Except.error _, Except.ok _ => Decidable.isFalse (by intro hh; cases hh)
    | Except.ok _, Except.error _ => Decidable.isFalse (by intro hh; cases hh)
    | Except.ok v1, Except.ok v2 =>
      if h : v1 = v2 then Decidable.isTrue (by rw [h])
      else Decidable.isFalse (by intro hh; cases hh; exact h rfl)

end EigenDA

namespace EigenDA.Streamer

/-- Blob keys are opaque, totally ordered identifiers (spec section 3). -/
abbrev BlobKey := ℕ

/-- Quorum identifiers are small integers (spec section 3). -/
abbrev QuorumID := ℕ

abbrev OperatorID := ℕ

/-- A chunk is opaque to the streamer; it is only sliced and bundled. -/
abbrev Chunk := ℕ

/-- core.SecurityParam — one requested quorum of a blob. -/
structure SecurityParam where
  quorumID : QuorumID
  adversaryThreshold : ℕ
  quorumThreshold : ℕ
  quorumRate : ℕ
deriving DecidableEq

/-- disperser.BlobMetadata, restricted to the fields the streamer reads:
the blob key, the blob size and the requested security params. -/
structure BlobMetadata where
  blobKey : BlobKey
  blobSize : ℕ
  securityParams : List SecurityParam
deriving DecidableEq

/-- core.Assignment — a contiguous chunk range for one operator. -/
structure Assignment where
  startIndex : ℕ
  numChunks : ℕ
deriving DecidableEq

/-- core.BlobQuorumInfo (encoding_streamer.go lines 302–311). -/
structure BlobQuorumInfo where
  quorumID : QuorumID
  adversaryThreshold : ℕ
  quorumThreshold : ℕ
  quorumRate : ℕ
  quantizationFactor : ℕ
  encodedBlobLength : ℕ
deriving DecidableEq

/-- batcher.EncodingResult — one encoded result per (blob, quorum).
Commitments are opaque tokens; chunks are a list sliced by assignments. -/
structure EncodingResult where
  metadata : BlobMetadata
  referenceBlockNumber : ℕ
  blobQuorumInfo : BlobQuorumInfo
  commitment : ℕ
  chunks : List Chunk
  assignments : List (OperatorID × Assignment)
deriving DecidableEq

/-- Modelled from the spec: the EncodedBlobStore implementation
(encoded_blob_store.go) is not among the provided sources; spec section 4.E
describes it as an index of outstanding encode requests keyed by
(blob-key, quorum) plus completed results keyed additionally by reference
block. -/
structure EncodedBlobStore where
  requested : List (BlobKey × QuorumID)
  encoded : List EncodingResult
deriving DecidableEq

/-- Modelled from the spec: `HasEncodingRequested(blob_key, quorum_id,
ref_block)` of section 4.E — true when a request is outstanding for the
(blob, quorum) or a completed result is stored at this reference block. -/
def hasEncodingRequested (st : EncodedBlobStore) (b : BlobKey) (q : QuorumID)
    (rb : ℕ) : Bool :=
  st.requested.contains (b, q) ||
    st.encoded.any (fun r =>
      r.metadata.blobKey == b && r.blobQuorumInfo.quorumID == q &&
        r.referenceBlockNumber == rb)

/-- Modelled from the spec: `PutEncodingRequest(blob_key, quorum_id)` of
section 4.E — records that an encode is in flight. -/
def putEncodingRequest (st : EncodedBlobStore) (b : BlobKey) (q : QuorumID) :
    EncodedBlobStore :=
  { st with requested := (b, q) :: st.requested }

/-- Modelled from the spec: `DeleteEncodingRequest(blob_key, quorum_id)` of
section 4.E — called on encoder failure. -/
def deleteEncodingRequest (st : EncodedBlobStore) (b : BlobKey) (q : QuorumID) :
    EncodedBlobStore :=
  { st with requested := st.requested.filter (fun kv => kv ≠ (b, q)) }

/-- Modelled from the spec: `GetNewAndDeleteStaleEncodingResults` of section
4.E — returns every result whose reference block equals the current one and
evicts all others. -/
def getNewAndDeleteStaleEncodingResults (st : EncodedBlobStore) (rb : ℕ) :
    List EncodingResult × EncodedBlobStore :=
  (st.encoded.filter (fun r => r.referenceBlockNumber == rb),
   { st with encoded := st.encoded.filter (fun r => r.referenceBlockNumber == rb) })

/-- dedupRequests (encoding_streamer.go lines 155–172): keep exactly the
metadatas for which not every quorum already has an outstanding request at
the current reference block. -/
def dedupRequests (st : EncodedBlobStore) (metas : List BlobMetadata)
    (rb : ℕ) : List BlobMetadata :=
  metas.filter (fun m =>
    !(m.securityParams.all (fun sp =>
      hasEncodingRequested st m.blobKey sp.quorumID rb)))

/-- The fallible parameter-derivation steps of RequestEncodingForBlob,
abstracted as oracles keyed by (blob, quorum): GetMinimumChunkLength
(line 279, `none` = error), GetEncodingParams (line 285, the resulting
(ChunkLength, NumChunks) pair or `none` = error) and ValidateEncodingParams
(line 291, `false` = SRSOrder violation).  In the Go code these are
deterministic functions of the metadata, the quorum and the cached batch
metadata, none of which changes within a tick. -/
structure ParamOracle where
  minChunkLen : BlobKey → QuorumID → Option ℕ
  encParams : BlobKey → QuorumID → Option (ℕ × ℕ)
  validateOK : BlobKey → QuorumID → Bool

/-- The first loop of RequestEncodingForBlob (lines 268–317): walk the
blob's security params, skip quorums already requested at this reference
block (line 272), skip quorums whose chunk-length or params computation
fails (lines 280–289, `continue`), and on a ValidateEncodingParams failure
return early from the whole function (lines 291–300, modelled as `none`)
after which no pending job is executed.  Otherwise collect the pending
quorums in order. -/
def collectPending (orc : ParamOracle) (st : EncodedBlobStore) (b : BlobKey)
    (rb : ℕ) : List SecurityParam → Option (List QuorumID)
  | [] => some []
  | sp :: rest =>
    if hasEncodingRequested st b sp.quorumID rb then
      collectPending orc st b rb rest
    else
      match orc.minChunkLen b sp.quorumID with
      | none => collectPending orc st b rb rest
      | some _ =>
        match orc.encParams b sp.quorumID with
        | none => collectPending orc st b rb rest
        | some _ =>
          if orc.validateOK b sp.quorumID then
            (collectPending orc st b rb rest).map (fun l => sp.quorumID :: l)
          else none

/-- The observable outcome of one RequestEncodingForBlob call: the encode
jobs submitted to the worker pool (in submission order), the store after
the per-job PutEncodingRequest registrations, and whether MarkBlobFailed
was called. -/
structure ForBlobOutcome where
  jobs : List (BlobKey × QuorumID)
  store : EncodedBlobStore
  markedFailed : Bool
deriving DecidableEq

/-- RequestEncodingForBlob (encoding_streamer.go lines 260–360).  If the
validation loop hit a ValidateEncodingParams failure the blob is marked
failed and the function returns before executing any pending request
(line 299); otherwise the second loop (lines 320–358) submits one encode
job per pending quorum and registers each request with PutEncodingRequest
(line 356) immediately after submitting it. -/
def requestEncodingForBlob (orc : ParamOracle) (st : EncodedBlobStore)
    (meta : BlobMetadata) (rb : ℕ) : ForBlobOutcome :=
  match collectPending orc st meta.blobKey rb meta.securityParams with
  | none => { jobs := [], store := st, markedFailed := true }
  | some pending =>
    { jobs := pending.map (fun q => (meta.blobKey, q)),
      store := pending.foldl (fun s q => putEncodingRequest s meta.blobKey q) st,
      markedFailed := false }

/-- One RequestEncoding tick (encoding_streamer.go lines 174–253), given
the Processing metadatas pulled from the blob store, the resolved reference
block number (line 191: when the held number is 0 the chain is queried and
its answer adopted; `rb` is the resolved value) and the capacity
`EncodingQueueLimit - pool.WaitingQueueSize()` (lines 211–223, modelled as
`cap`).  After dedup and capping, RequestEncodingForBlob runs for each
selected metadata in order, threading the store. -/
def requestEncoding (orc : ParamOracle) (st : EncodedBlobStore)
    (metas : List BlobMetadata) (rb cap : ℕ) :
    List (BlobKey × QuorumID) × EncodedBlobStore :=
  ((dedupRequests st metas rb).take cap).foldl
    (fun acc m =>
      let r := requestEncodingForBlob orc acc.2 m rb
      (acc.1 ++ r.jobs, r.store))
    ([], st)

/-- How many encode jobs for the given (blob, quorum) a job list contains. -/
def jobCount (jobs : List (BlobKey × QuorumID)) (b : BlobKey) (q : QuorumID) : ℕ :=
  jobs.countP (fun j => j == (b, q))

end EigenDA.Streamer

namespace EigenDA.Streamer

/-- The two store-visible actions the requester performs per pending quorum
in the execution loop of RequestEncodingForBlob: `submit` (Pool.Submit,
line 333) and `put` (PutEncodingRequest, line 356). -/
inductive ReqAction where
  | submit (b : BlobKey) (q : QuorumID)
  | put (b : BlobKey) (q : QuorumID)
deriving DecidableEq

/-- The requester-thread action sequence of the execution loop of
RequestEncodingForBlob (lines 320–358): for each pending quorum, first
Pool.Submit, then PutEncodingRequest. -/
def requesterTrace (b : BlobKey) (pending : List QuorumID) : List ReqAction :=
  pending.flatMap (fun q => [ReqAction.submit b q, ReqAction.put b q])

/-- The pending-quorum list a RequestEncodingForBlob call executes
(empty when the validation loop returned early). -/
def pendingOf (orc : ParamOracle) (st : EncodedBlobStore) (meta : BlobMetadata)
    (rb : ℕ) : List QuorumID :=
  (collectPending orc st meta.blobKey rb meta.securityParams).getD []

/-- The requester-thread action sequence of one RequestEncodingForBlob call. -/
def forBlobTrace (orc : ParamOracle) (st : EncodedBlobStore)
    (meta : BlobMetadata) (rb : ℕ) : List ReqAction :=
  requesterTrace meta.blobKey (pendingOf orc st meta rb)

/-- An event of the concurrent execution: either a requester action, or the
completion of a submitted worker-pool job (EncodeBlob returning and the
result being pushed onto the output channel, lines 333–355). -/
inductive Event where
  | act (a : ReqAction)
  | complete (b : BlobKey) (q : QuorumID)
deriving DecidableEq

/-- The requester actions of an interleaved trace, in order. -/
def reqProj (T : List Event) : List ReqAction :=
  T.filterMap (fun e =>
    match e with
    | Event.act a => some a
    | Event.complete _ _ => none)

/-- A valid interleaving of the requester's action sequence `R` with worker
completions: the requester actions occur in program order, and a job can
complete only after it has been submitted (the worker pool may run a job
any time after Pool.Submit; nothing in the code orders completion against
the subsequent PutEncodingRequest). -/
def ValidInterleaving (R : List ReqAction) (T : List Event) : Prop :=
  reqProj T = R ∧
    ∀ (i : ℕ) (b : BlobKey) (q : QuorumID),
      T[i]? = some (Event.complete b q) →
        ∃ j : ℕ, j < i ∧ T[j]? = some (Event.act (ReqAction.submit b q))

/-- The notifier-relevant operations: ProcessEncodedBlobs with the
encoded-size threshold condition of line 374 already evaluated
(`thresholdMet`), and CreateBatch, which resets `active` unless it took the
early return of lines 408–416 (which happens before the reset at lines
423–425). -/
inductive NotifierOp where
  | process (thresholdMet : Bool)
  | createBatchOp (earlyReturn : Bool)
deriving DecidableEq

/-- One step of the EncodedSizeNotifier `active` flag, returning whether a
signal is emitted and the new flag.  ProcessEncodedBlobs (lines 373–384)
emits a signal only when the threshold is met and `active` is true, and
then immediately sets `active` to false; CreateBatch (lines 422–425) sets
`active` back to true (unless it returned early). -/
def notifierStep (active : Bool) : NotifierOp → Bool × Bool
  | NotifierOp.process met => if met && active then (true, false) else (false, active)
  | NotifierOp.createBatchOp early => (false, if early then active else true)

/-- The number of signals emitted on the Notify channel over a sequence of
operations, starting from the given `active` flag. -/
def notifierSignals (active : Bool) : List NotifierOp → ℕ
  | [] => 0
  | op :: rest =>
    ((notifierStep active op).1.toNat) + notifierSignals (notifierStep active op).2 rest

end EigenDA.Streamer

namespace EigenDA.Streamer

/-- Association-list lookup modelling a Go map read (`m[k]`). -/
def lookupA {β : Type} : List (ℕ × β) → ℕ → Option β
  | [], _ => none
  | (k2, v) :: rest, k => if k = k2 then some v else lookupA rest k

/-- Association-list update modelling a Go map write (`m[k] = v`). -/
def updA {β : Type} : List (ℕ × β) → ℕ → β → List (ℕ × β)
  | [], k, v => [(k, v)]
  | (k2, v2) :: rest, k, v =>
    if k = k2 then (k, v) :: rest else (k2, v2) :: updA rest k v

/-- The key set of a Go map, as the association list's keys. -/
def keysA {β : Type} (m : List (ℕ × β)) : List ℕ := m.map Prod.fst

/-- core.BlobHeader, restricted to what CreateBatch writes: the commitment
of the result that created it and the blob's quorum infos. -/
structure BlobHeader where
  commitment : ℕ
  quorumInfos : List BlobQuorumInfo
deriving DecidableEq

/-- core.BlobMessage — a header plus per-quorum chunk bundles. -/
structure BlobMessage where
  header : BlobHeader
  bundles : List (QuorumID × List Chunk)
deriving DecidableEq

/-- core.EncodedBlob — the per-operator map of blob messages. -/
abbrev EncodedBlob := List (OperatorID × BlobMessage)

/-- core.BatchHeader (reference block number and batch root). -/
structure BatchHeader where
  referenceBlockNumber : ℕ
  batchRoot : ℕ
deriving DecidableEq

/-- batcher.batchMetadata, abstracted to a token: CreateBatch only obtains
it from getBatchMetadata and stores it in the batch. -/
structure BatchMeta where
  token : ℕ
deriving DecidableEq

/-- batcher.batch — the value CreateBatch returns on success. -/
structure Batch where
  encodedBlobs : List EncodedBlob
  blobMetadata : List BlobMetadata
  blobHeaders : List (Option BlobHeader)
  batchHeader : BatchHeader
  batchMetadata : BatchMeta
  merkleTree : ℕ
deriving DecidableEq

/-- The mutable EncodingStreamer state CreateBatch touches: the reference
block number, the cancel-function list (modelled as opaque tokens), the
encoded blob store and the notifier's `active` flag. -/
structure StreamerState where
  referenceBlockNumber : ℕ
  encodingCtxCancelFuncs : List ℕ
  store : EncodedBlobStore
  notifierActive : Bool
deriving DecidableEq

/-- The external collaborators CreateBatch calls, as oracles:
`GetCurrentBlockNumber` (line 409), `getBatchMetadata` (line 503, keyed by
the metadata slice and the reference block) and `SetBatchRoot` (line 514,
returning the 32-byte root and the merkle tree, both abstracted to
tokens). -/
structure ChainOracle where
  currentBlockNumber : Except Unit ℕ
  batchMetadataFor : List BlobMetadata → ℕ → Except Unit BatchMeta
  merkleRoot : List (Option BlobHeader) → Except Unit (ℕ × ℕ)

/-- The error outcomes of CreateBatch: the no-encoded-results sentinel
(errNoEncodedResults), a getBatchMetadata failure, and a SetBatchRoot
failure. -/
inductive CreateBatchError where
  | noEncodedResults
  | batchMetadataError
  | setBatchRootError
deriving DecidableEq

/-- The four grouping maps CreateBatch builds (lines 432–435). -/
structure GroupAcc where
  encodedBlobByKey : List (BlobKey × EncodedBlob)
  blobQuorums : List (BlobKey × List BlobQuorumInfo)
  blobHeaderByKey : List (BlobKey × BlobHeader)
  metadataByKey : List (BlobKey × BlobMetadata)
deriving DecidableEq

/-- Append chunks to one quorum's bundle of a blob message (line 462). -/
def bundleAppend (bundles : List (QuorumID × List Chunk)) (q : QuorumID)
    (cs : List Chunk) : List (QuorumID × List Chunk) :=
  updA bundles q ((lookupA bundles q).getD [] ++ cs)

/-- The inner assignment loop body of CreateBatch (lines 449–463) for one
(operator, assignment) pair: look up (or create, lines 451–461) the
operator's blob message — creating it also overwrites blobHeaderByKey with
a fresh header carrying this result's commitment — then append the
operator's chunk range `Chunks[start : start+n]` to the bundle of this
result's quorum.  (The Go slice expression panics when the range exceeds
the chunk list; the model truncates instead, which no claim depends on.) -/
def processAssignment (r : EncodingResult) (acc : GroupAcc)
    (oa : OperatorID × Assignment) : GroupAcc :=
  let blobKey := r.metadata.blobKey
  let eb := (lookupA acc.encodedBlobByKey blobKey).getD []
  let slice := (r.chunks.drop oa.2.startIndex).take oa.2.numChunks
  match lookupA eb oa.1 with
  | some msg =>
    let msg2 := { msg with
      bundles := bundleAppend msg.bundles r.blobQuorumInfo.quorumID slice }
    { acc with encodedBlobByKey := updA acc.encodedBlobByKey blobKey (updA eb oa.1 msg2) }
  | none =>
    let hdr : BlobHeader := { commitment := r.commitment, quorumInfos := [] }
    let msg2 : BlobMessage :=
      { header := hdr,
        bundles := bundleAppend [] r.blobQuorumInfo.quorumID slice }
    { acc with
      encodedBlobByKey := updA acc.encodedBlobByKey blobKey (updA eb oa.1 msg2),
      blobHeaderByKey := updA acc.blobHeaderByKey blobKey hdr }

/-- The outer grouping loop body of CreateBatch (lines 436–466) for one
encoded result: initialise the per-blob entries on first sight of the blob
key (lines 442–446), run the assignment loop, then append this result's
BlobQuorumInfo (line 465). -/
def processResult (acc : GroupAcc) (r : EncodingResult) : GroupAcc :=
  let blobKey := r.metadata.blobKey
  let acc1 :=
    if (lookupA acc.encodedBlobByKey blobKey).isNone then
      { acc with
        metadataByKey := updA acc.metadataByKey blobKey r.metadata,
        blobQuorums := updA acc.blobQuorums blobKey [],
        encodedBlobByKey := updA acc.encodedBlobByKey blobKey [] }
    else acc
  let acc2 := r.assignments.foldl (processAssignment r) acc1
  { acc2 with
    blobQuorums := updA acc2.blobQuorums blobKey
      ((lookupA acc2.blobQuorums blobKey).getD [] ++ [r.blobQuorumInfo]) }

/-- The grouping loop of CreateBatch over all drained results. -/
def groupResults (rs : List EncodingResult) : GroupAcc :=
  rs.foldl processResult
    { encodedBlobByKey := [], blobQuorums := [], blobHeaderByKey := [],
      metadataByKey := [] }

/-- The quorum-info population loop (lines 469–473): every blob message's
header receives the blob's quorum-info list; through Go pointer aliasing the
blobHeaderByKey entries are the same header objects, so they receive the
same update. -/
def applyQuorumInfos (g : GroupAcc) : GroupAcc :=
  { g with
    encodedBlobByKey := g.encodedBlobByKey.map (fun kv =>
      (kv.1, kv.2.map (fun om =>
        (om.1, { om.2 with header := { om.2.header with
          quorumInfos := (lookupA g.blobQuorums kv.1).getD [] } })))),
    blobHeaderByKey := g.blobHeaderByKey.map (fun kv =>
      (kv.1, { kv.2 with quorumInfos := (lookupA g.blobQuorums kv.1).getD [] })) }

/-- The quorum-gap condition of lines 475–489: a blob is kept iff every
requested quorum of its metadata appears among the quorums of its stored
results. -/
def quorumCovered (g : GroupAcc) (k : BlobKey) (md : BlobMetadata) : Bool :=
  md.securityParams.all (fun sp =>
    ((lookupA g.blobQuorums k).getD []).any (fun bqi => bqi.quorumID == sp.quorumID))

/-- The quorum-gap drop loop (lines 475–489): delete from metadataByKey
every blob missing a requested quorum.  The Go loop deletes only the key it
is currently visiting, so it is equivalent to this filter. -/
def filterQuorumGap (g : GroupAcc) : List (BlobKey × BlobMetadata) :=
  g.metadataByKey.filter (fun kv => quorumCovered g kv.1 kv.2)

/-- Placeholder metadata for the (unreachable) missed-lookup case of the
materialization loop; Go would read a present map entry here. -/
def defaultMeta : BlobMetadata := { blobKey := 0, blobSize := 0, securityParams := [] }

/-- The grouping pipeline of CreateBatch applied to the results drained at
the held reference block. -/
def groupedOf (s : StreamerState) : GroupAcc :=
  applyQuorumInfos (groupResults
    (getNewAndDeleteStaleEncodingResults s.store s.referenceBlockNumber).1)

/-- The key set of metadataByKey after the quorum-gap drop; the Go
materialization loop `for key := range metadataByKey` (line 496) visits
exactly these keys, in an order the Go runtime does not specify. -/
def createBatchKeys (s : StreamerState) : List BlobKey :=
  keysA (filterQuorumGap (groupedOf s))

/-- CreateBatch (encoding_streamer.go lines 393–529).  `order` stands for
the Go map iteration order of the materialization loop (line 496); the
faithfulness hypothesis accompanying it in the theorems is that it is a
permutation of `createBatchKeys`.  Returns the result (batch or error) and
the post state: cancel functions are always cleared (lines 399–405); on the
no-reference-block early return (lines 408–416) stale results are evicted
when the chain query succeeds; otherwise results are drained at the held
reference block, the notifier is re-activated (lines 422–425), and on the
full success path the reference block number is reset to 0 (line 519). -/
def createBatch (orc : ChainOracle) (order : List BlobKey) (s : StreamerState) :
    Except CreateBatchError Batch × StreamerState :=
  let s0 : StreamerState := { s with encodingCtxCancelFuncs := [] }
  if s.referenceBlockNumber = 0 then
    match orc.currentBlockNumber with
    | Except.error _ => (Except.error CreateBatchError.noEncodedResults, s0)
    | Except.ok bn =>
      (Except.error CreateBatchError.noEncodedResults,
       { s0 with store := (getNewAndDeleteStaleEncodingResults s0.store bn).2 })
  else
    let drained := getNewAndDeleteStaleEncodingResults s0.store s.referenceBlockNumber
    let s1 : StreamerState := { s0 with store := drained.2, notifierActive := true }
    if drained.1.length = 0 then
      (Except.error CreateBatchError.noEncodedResults, s1)
    else
      let g := applyQuorumInfos (groupResults drained.1)
      let metaF := filterQuorumGap g
      let encodedBlobs := order.map (fun k => (lookupA g.encodedBlobByKey k).getD [])
      let blobHeaders := order.map (fun k => lookupA g.blobHeaderByKey k)
      let metadatas := order.map (fun k => (lookupA metaF k).getD defaultMeta)
      match orc.batchMetadataFor metadatas s.referenceBlockNumber with
      | Except.error _ => (Except.error CreateBatchError.batchMetadataError, s1)
      | Except.ok bm =>
        match orc.merkleRoot blobHeaders with
        | Except.error _ => (Except.error CreateBatchError.setBatchRootError, s1)
        | Except.ok rt =>
          (Except.ok
            { encodedBlobs := encodedBlobs,
              blobMetadata := metadatas,
              blobHeaders := blobHeaders,
              batchHeader :=
                { referenceBlockNumber := s.referenceBlockNumber, batchRoot := rt.1 },
              batchMetadata := bm,
              merkleTree := rt.2 },
           { s1 with referenceBlockNumber := 0 })

end EigenDA.Streamer

namespace EigenDA.Encoding

/-- core.EncodingParams — chunk length and number of chunks. -/
structure EncodingParams where
  chunkLength : ℕ
  numChunks : ℕ
deriving DecidableEq

/-- encodedValue — the cached commitments and chunks (part_001 lines 47–51);
commitments and chunks are opaque tokens here, and the stored error is
always nil on the caching path (line 91–95). -/
structure EncodedValue where
  commitments : ℕ
  chunks : List ℕ
deriving DecidableEq

/-- hashBlob (part_001 lines 160–165) feeds sha256 with the blob bytes
followed by the single bytes `byte(params.ChunkLength)` and
`byte(params.NumChunks)` — the low-order bytes only, modelled as `% 256`.
sha256 is a fixed deterministic function of this byte string, so cache-key
equality is decided by equality of this input; the model uses the input
bytes themselves as the key. -/
def hashBlobInput (data : List ℕ) (params : EncodingParams) : List ℕ :=
  data ++ [params.chunkLength % 256, params.numChunks % 256]

/-- The LRU cache contents, keyed by the hashBlob input.  The capacity-128
eviction of the Go LRU cannot remove an entry between the call that adds it
and an immediately following lookup of the same key, which is all the
claims use, so eviction is not modelled. -/
structure CacheState where
  entries : List (List ℕ × EncodedValue)
deriving DecidableEq

/-- The Encoder with its configuration and underlying KZG encoder group;
GetKzgEncoder + EncodeBytes + commitment assembly (part_001 lines 62–88)
are one deterministic fallible oracle. -/
structure EncoderModel where
  cacheEnabled : Bool
  encodeImpl : List ℕ → EncodingParams → Except Unit EncodedValue

/-- Cache lookup. -/
def cacheGet (c : CacheState) (k : List ℕ) : Option EncodedValue :=
  c.entries.lookup k

/-- Encoder.Encode (part_001 lines 53–98): when CacheEncodedBlobs is set,
look the hashBlob key up and return the hit; on a miss run the encoder and,
only on success, add the result under the key.  When caching is disabled
run the encoder directly. -/
def encode (E : EncoderModel) (c : CacheState) (data : List ℕ)
    (params : EncodingParams) : Except Unit EncodedValue × CacheState :=
  if E.cacheEnabled then
    match cacheGet c (hashBlobInput data params) with
    | some v => (Except.ok v, c)
    | none =>
      match E.encodeImpl data params with
      | Except.error e => (Except.error e, c)
      | Except.ok v =>
        (Except.ok v, { entries := (hashBlobInput data params, v) :: c.entries })
  else
    (E.encodeImpl data params, c)

end EigenDA.Encoding

namespace EigenDA.Streamer

/-- Concrete inputs used by witnesses: a single-quorum metadata. -/
def wMeta : BlobMetadata :=
  { blobKey := 7, blobSize := 100, securityParams := [⟨0, 33, 80, 1⟩] }

/-- An oracle on which every parameter derivation succeeds. -/
def wOracleOK : ParamOracle :=
  { minChunkLen := fun _ _ => some 8,
    encParams := fun _ _ => some (8, 4),
    validateOK := fun _ _ => true }

/-- An empty store. -/
def wStoreEmpty : EncodedBlobStore := { requested := [], encoded := [] }

/-- An oracle whose chunk-length computation fails everywhere. -/
def wOracleChunkErr : ParamOracle :=
  { minChunkLen := fun _ _ => none,
    encParams := fun _ _ => some (8, 4),
    validateOK := fun _ _ => true }

/-- An oracle on which ValidateEncodingParams fails everywhere. -/
def wOracleValidateErr : ParamOracle :=
  { minChunkLen := fun _ _ => some 8,
    encParams := fun _ _ => some (8, 4),
    validateOK := fun _ _ => false }

/-- The interleaved trace used against claim C3: the job submitted for
(blob 7, quorum 0) completes before its PutEncodingRequest registration. -/
def wBadTrace : List Event :=
  [Event.act (ReqAction.submit 7 0), Event.complete 7 0,
   Event.act (ReqAction.put 7 0)]

/-- A blob-quorum info for quorum 0, as built by RequestEncodingForBlob. -/
def wBqi0 : BlobQuorumInfo :=
  { quorumID := 0, adversaryThreshold := 33, quorumThreshold := 80,
    quorumRate := 1, quantizationFactor := 1, encodedBlobLength := 16 }

/-- A blob-quorum info for quorum 1. -/
def wBqi1 : BlobQuorumInfo :=
  { quorumID := 1, adversaryThreshold := 33, quorumThreshold := 80,
    quorumRate := 1, quantizationFactor := 1, encodedBlobLength := 16 }

/-- Metadata of blob 3, requesting quorum 0 only. -/
def wMeta3 : BlobMetadata :=
  { blobKey := 3, blobSize := 50, securityParams := [⟨0, 33, 80, 1⟩] }

/-- A complete encoded result for blob 3 / quorum 0 at reference block 5. -/
def wResult3 : EncodingResult :=
  { metadata := wMeta3, referenceBlockNumber := 5, blobQuorumInfo := wBqi0,
    commitment := 11, chunks := [21, 22], assignments := [(1, ⟨0, 2⟩)] }

/-- A streamer state holding reference block 5 and the one result. -/
def wState5 : StreamerState :=
  { referenceBlockNumber := 5, encodingCtxCancelFuncs := [9],
    store := { requested := [], encoded := [wResult3] }, notifierActive := false }

/-- An oracle on which every CreateBatch collaborator succeeds. -/
def wChainOK : ChainOracle :=
  { currentBlockNumber := Except.ok 20,
    batchMetadataFor := fun _ _ => Except.ok ⟨0⟩,
    merkleRoot := fun _ => Except.ok (42, 77) }

/-- Metadata of blob 4, requesting quorums 0 and 1. -/
def wMeta4 : BlobMetadata :=
  { blobKey := 4, blobSize := 50, securityParams := [⟨0, 33, 80, 1⟩, ⟨1, 33, 80, 1⟩] }

/-- A result for blob 4 covering only quorum 0 (quorum 1 failed to encode). -/
def wResult4 : EncodingResult :=
  { metadata := wMeta4, referenceBlockNumber := 5, blobQuorumInfo := wBqi0,
    commitment := 13, chunks := [31, 32], assignments := [(1, ⟨0, 2⟩)] }

/-- A streamer state whose only drained blob has a quorum gap. -/
def wStateGap : StreamerState :=
  { referenceBlockNumber := 5, encodingCtxCancelFuncs := [],
    store := { requested := [], encoded := [wResult4] }, notifierActive := false }

/-- Metadata of blob 8, requesting quorum 0 only. -/
def wMeta8 : BlobMetadata :=
  { blobKey := 8, blobSize := 50, securityParams := [⟨0, 33, 80, 1⟩] }

/-- A complete result for blob 8 / quorum 0 at reference block 5. -/
def wResult8 : EncodingResult :=
  { metadata := wMeta8, referenceBlockNumber := 5, blobQuorumInfo := wBqi0,
    commitment := 17, chunks := [41, 42], assignments := [(1, ⟨0, 2⟩)] }

/-- A streamer state with two complete blobs (3 and 8), for the map
iteration order counterexample. -/
def wStateTwo : StreamerState :=
  { referenceBlockNumber := 5, encodingCtxCancelFuncs := [],
    store := { requested := [], encoded := [wResult3, wResult8] },
    notifierActive := false }

/-- A streamer state with no reference block held (early-return path). -/
def wStateZero : StreamerState :=
  { referenceBlockNumber := 0, encodingCtxCancelFuncs := [4],
    store := { requested := [], encoded := [wResult3] }, notifierActive := true }

/-- The batch `createBatch wChainOK [3] wState5` returns. -/
def wBatch5 : Batch :=
  { encodedBlobs :=
      [[(1, { header := { commitment := 11, quorumInfos := [wBqi0] },
              bundles := [(0, [21, 22])] })]],
    blobMetadata := [wMeta3],
    blobHeaders := [some { commitment := 11, quorumInfos := [wBqi0] }],
    batchHeader := { referenceBlockNumber := 5, batchRoot := 42 },
    batchMetadata := { token := 0 },
    merkleTree := 77 }

/-- The state `createBatch wChainOK [3] wState5` leaves behind. -/
def wState5After : StreamerState :=
  { referenceBlockNumber := 0, encodingCtxCancelFuncs := [],
    store := { requested := [], encoded := [wResult3] }, notifierActive := true }

/-- The state the early-return `createBatch wChainOK [] wStateZero` leaves
behind: cancel functions cleared, stale results evicted, reference block
still 0. -/
def wStateZeroAfter : StreamerState :=
  { referenceBlockNumber := 0, encodingCtxCancelFuncs := [],
    store := { requested := [], encoded := [] }, notifierActive := true }

/-- The empty batch `createBatch wChainOK [] wStateGap` returns after the
quorum-gap blob is dropped. -/
def wBatchGap : Batch :=
  { encodedBlobs := [], blobMetadata := [], blobHeaders := [],
    batchHeader := { referenceBlockNumber := 5, batchRoot := 42 },
    batchMetadata := { token := 0 }, merkleTree := 77 }

/-- The state `createBatch wChainOK [] wStateGap` leaves behind. -/
def wStateGapAfter : StreamerState :=
  { referenceBlockNumber := 0, encodingCtxCancelFuncs := [],
    store := { requested := [], encoded := [wResult4] }, notifierActive := true }

end EigenDA.Streamer

namespace EigenDA.Encoding

/-- An encoder whose implementation always succeeds with a fixed value. -/
def wEncoder : EncoderModel :=
  { cacheEnabled := true, encodeImpl := fun _ _ => Except.ok ⟨5, [6, 7]⟩ }

/-- First-call parameters. -/
def wParams1 : EncodingParams := { chunkLength := 3, numChunks := 4 }

/-- Second-call parameters, differing from the first but congruent mod 256. -/
def wParams2 : EncodingParams := { chunkLength := 259, numChunks := 516 }

end EigenDA.Encoding

namespace EigenDA.Recovery

variable {F : Type} [Field F]

theorem evalList_polyAddL (p q : List F) (x : F) :
    evalList (polyAddL p q) x = evalList p x + evalList q x := by
  induction p generalizing q with
  | nil => simp [polyAddL, evalList]
  | cons a as ih =>
    cases q with
    | nil => simp [polyAddL, evalList]
    | cons b bs => simp [polyAddL, evalList, ih]; ring

theorem evalList_scaleL (c : F) (l : List F) (x : F) :
    evalList (scaleL c l) x = c * evalList l x := by
  induction l with
  | nil => simp [scaleL, evalList]
  | cons a as ih => simp [scaleL, evalList] at ih ⊢; rw [ih]; ring

theorem evalList_mulByRoot (r : F) (l : List F) (x : F) :
    evalList (mulByRoot r l) x = (x - r) * evalList l x := by
  rw [mulByRoot, evalList_polyAddL, evalList_scaleL]
  simp [evalList]; ring

theorem evalList_zpolyL (roots : List F) (x : F) :
    evalList (zpolyL roots) x = (roots.map (fun r => x - r)).prod := by
  induction roots with
  | nil => simp [zpolyL, evalList]
  | cons r rs ih =>
    simp only [zpolyL, List.foldr] at ih ⊢
    rw [evalList_mulByRoot, ih, List.map_cons, List.prod_cons]

theorem evalList_polyMulL (p q : List F) (x : F) :
    evalList (polyMulL p q) x = evalList p x * evalList q x := by
  induction p with
  | nil => simp [polyMulL, evalList]
  | cons a as ih =>
    simp only [polyMulL, evalList_polyAddL, evalList_scaleL, evalList, ih]
    ring

theorem length_polyAddL (p q : List F) :
    (polyAddL p q).length = max p.length q.length := by
  induction p generalizing q with
  | nil => simp [polyAddL]
  | cons a as ih =>
    cases q with
    | nil => simp [polyAddL]
    | cons b bs => simp [polyAddL, ih]; omega

theorem length_mulByRoot (r : F) (l : List F) :
    (mulByRoot r l).length = l.length + 1 := by
  simp [mulByRoot, length_polyAddL, scaleL]

theorem length_zpolyL (roots : List F) :
    (zpolyL roots).length = roots.length + 1 := by
  induction roots with
  | nil => simp [zpolyL]
  | cons r rs ih =>
    simp only [zpolyL, List.foldr] at ih ⊢
    rw [length_mulByRoot, ih]; simp

theorem length_polyMulL (p q : List F) (hq : q ≠ []) :
    (polyMulL p q).length + 1 ≤ p.length + q.length := by
  induction p with
  | nil =>
    have : 1 ≤ q.length := List.length_pos.mpr hq
    simp [polyMulL]; omega
  | cons a as ih =>
    simp only [polyMulL, length_polyAddL, scaleL, List.length_map,
      List.length_cons] at ih ⊢
    omega

theorem evalList_eq_sum_range (l : List F) (n : ℕ) (hn : l.length ≤ n) (x : F) :
    ∑ j ∈ Finset.range n, l.getD j 0 * x ^ j = evalList l x := by
  induction l generalizing n with
  | nil => simp [evalList]
  | cons a as ih =>
    cases n with
    | zero => simp at hn
    | succ m =>
      rw [Finset.sum_range_succ']
      simp only [List.getD_cons_succ, List.getD_cons_zero, pow_zero, mul_one,
        pow_succ]
      have : ∀ j : ℕ, as.getD j 0 * (x ^ j * x) = x * (as.getD j 0 * x ^ j) := by
        intro j; ring
      rw [Finset.sum_congr rfl (fun j _ => this j), ← Finset.mul_sum,
        ih m (by simpa using hn), evalList]
      ring

theorem polyEvalV_eq_sum_range (n : ℕ) (c : Fin n → F) (x : F) :
    polyEvalV n c x
      = ∑ j ∈ Finset.range n, (if h : j < n then c ⟨j, h⟩ else 0) * x ^ j := by
  rw [polyEvalV, ← Fin.sum_univ_eq_sum_range (fun j => (if h : j < n then c ⟨j, h⟩ else 0) * x ^ j) n]
  exact Finset.sum_congr rfl (fun j _ => by rw [dif_pos j.isLt])

theorem polyEvalV_getD (n : ℕ) (l : List F) (hn : l.length ≤ n) (x : F) :
    polyEvalV n (fun j : Fin n => l.getD (j : ℕ) 0) x = evalList l x := by
  rw [polyEvalV_eq_sum_range, ← evalList_eq_sum_range l n hn]
  refine Finset.sum_congr rfl (fun j hj => ?_)
  rw [dif_pos (Finset.mem_range.mp hj)]

theorem geom_sum_zero_of_pow_eq_one (z : F) (n : ℕ) (hzn : z ^ n = 1) (hz : z ≠ 1) :
    ∑ i ∈ Finset.range n, z ^ i = 0 := by
  have h := geom_sum_mul z n
  rw [hzn, sub_self] at h
  rcases mul_eq_zero.mp h with h1 | h1
  · exact h1
  · exact absurd (sub_eq_zero.mp h1) hz

theorem omega_ne_zero {n : ℕ} {ω : F} (hn : 0 < n) (hω : ω ^ n = 1) : ω ≠ 0 := by
  intro h
  rw [h, zero_pow hn.ne'] at hω
  exact zero_ne_one hω

theorem pow_eq_one_of_pow_eq {n : ℕ} {ω : F} (hn : 0 < n) (hω : ω ^ n = 1)
    {a b : ℕ} (hab : a ≤ b) (h : ω ^ a = ω ^ b) : ω ^ (b - a) = 1 := by
  have hω0 : ω ≠ 0 := omega_ne_zero hn hω
  have : ω ^ a * ω ^ (b - a) = ω ^ a * 1 := by
    rw [mul_one, ← pow_add, Nat.add_sub_cancel' hab, h]
  exact mul_left_cancel₀ (pow_ne_zero a hω0) this

theorem pow_inj_of_prim {n : ℕ} {ω : F} (hn : 0 < n) (hω : ω ^ n = 1)
    (hprim : ∀ d : ℕ, 0 < d → d < n → ω ^ d ≠ 1)
    {a b : ℕ} (ha : a < n) (hb : b < n) (h : ω ^ a = ω ^ b) : a = b := by
  rcases le_total a b with hab | hab
  · by_contra hne
    have hd : 0 < b - a := by omega
    exact hprim (b - a) hd (by omega) (pow_eq_one_of_pow_eq hn hω hab h)
  · by_contra hne
    have hd : 0 < a - b := by omega
    exact hprim (a - b) hd (by omega) (pow_eq_one_of_pow_eq hn hω hab h.symm)

theorem dft_apply (n : ℕ) (ω : F) (c : Fin n → F) (i : Fin n) :
    dft n ω c i = ∑ m : Fin n, c m * ω ^ ((i : ℕ) * (m : ℕ)) := by
  rw [dft, polyEvalV]
  exact Finset.sum_congr rfl (fun m _ => by rw [← pow_mul])

theorem inner_orthogonality {n : ℕ} {ω : F} (hn : 0 < n) (hω : ω ^ n = 1)
    (hprim : ∀ d : ℕ, 0 < d → d < n → ω ^ d ≠ 1) (m j : Fin n) :
    ∑ i : Fin n, ω ^ ((i : ℕ) * (m : ℕ)) * (ω⁻¹) ^ ((i : ℕ) * (j : ℕ))
      = if m = j then (n : F) else 0 := by
  have hω0 : ω ≠ 0 := omega_ne_zero hn hω
  have hterm : ∀ i : Fin n,
      ω ^ ((i : ℕ) * (m : ℕ)) * (ω⁻¹) ^ ((i : ℕ) * (j : ℕ))
        = (ω ^ (m : ℕ) * (ω⁻¹) ^ (j : ℕ)) ^ (i : ℕ) := by
    intro i
    rw [mul_pow, ← pow_mul, ← pow_mul, Nat.mul_comm (m : ℕ) (i : ℕ),
      Nat.mul_comm (j : ℕ) (i : ℕ)]
  rw [Finset.sum_congr rfl (fun i _ => hterm i),
    Fin.sum_univ_eq_sum_range (fun i => (ω ^ (m : ℕ) * (ω⁻¹) ^ (j : ℕ)) ^ i) n]
  by_cases hmj : m = j
  · subst hmj
    rw [if_pos rfl]
    have : ω ^ (m : ℕ) * (ω⁻¹) ^ (m : ℕ) = 1 := by
      rw [← mul_pow, mul_inv_cancel₀ hω0, one_pow]
    rw [this]
    simp
  · rw [if_neg hmj]
    set z := ω ^ (m : ℕ) * (ω⁻¹) ^ (j : ℕ) with hz
    have hzn : z ^ n = 1 := by
      rw [hz, mul_pow, ← pow_mul, ← pow_mul, Nat.mul_comm (m : ℕ) n,
        Nat.mul_comm (j : ℕ) n, pow_mul, pow_mul, hω, inv_pow, hω, one_pow,
        inv_one, one_pow, mul_one]
    have hz1 : z ≠ 1 := by
      intro h1
      apply hmj
      have : ω ^ (m : ℕ) = ω ^ (j : ℕ) := by
        have hj0 : (ω ^ (j : ℕ)) ≠ 0 := pow_ne_zero _ hω0
        field_simp [hz] at h1
        exact h1
      exact Fin.ext (pow_inj_of_prim hn hω hprim m.isLt j.isLt this)
    exact geom_sum_zero_of_pow_eq_one z n hzn hz1

theorem idft_dft {n : ℕ} {ω : F} (hn : 0 < n) (hω : ω ^ n = 1)
    (hprim : ∀ d : ℕ, 0 < d → d < n → ω ^ d ≠ 1) (hF : (n : F) ≠ 0)
    (c : Fin n → F) (j : Fin n) : idft n ω (dft n ω c) j = c j := by
  rw [idft]
  have step1 : ∀ i : Fin n,
      dft n ω c i * (ω⁻¹) ^ ((i : ℕ) * (j : ℕ))
        = ∑ m : Fin n, c m * (ω ^ ((i : ℕ) * (m : ℕ)) * (ω⁻¹) ^ ((i : ℕ) * (j : ℕ))) := by
    intro i
    rw [dft_apply, Finset.sum_mul]
    exact Finset.sum_congr rfl (fun m _ => by ring)
  rw [Finset.sum_congr rfl (fun i _ => step1 i), Finset.sum_comm]
  have step2 : ∀ m : Fin n,
      ∑ i : Fin n, c m * (ω ^ ((i : ℕ) * (m : ℕ)) * (ω⁻¹) ^ ((i : ℕ) * (j : ℕ)))
        = c m * (if m = j then (n : F) else 0) := by
    intro m
    rw [← Finset.mul_sum, inner_orthogonality hn hω hprim m j]
  rw [Finset.sum_congr rfl (fun m _ => step2 m)]
  have step3 : ∀ m : Fin n,
      c m * (if m = j then (n : F) else 0) = if m = j then c m * (n : F) else 0 := by
    intro m
    by_cases h : m = j <;> simp [h]
  rw [Finset.sum_congr rfl (fun m _ => step3 m), Finset.sum_ite_eq' Finset.univ j
    (fun m => c m * (n : F))]
  rw [if_pos (Finset.mem_univ j)]
  field_simp

theorem polyEvalV_scale (n : ℕ) (c : Fin n → F) (t x : F) :
    polyEvalV n (fun j => c j * t ^ (j : ℕ)) x = polyEvalV n c (t * x) := by
  rw [polyEvalV, polyEvalV]
  exact Finset.sum_congr rfl (fun j _ => by rw [mul_pow]; ring)

theorem dft_scale (n : ℕ) (ω : F) (c : Fin n → F) (t : F) (i : Fin n) :
    dft n ω (fun j => c j * t ^ (j : ℕ)) i = polyEvalV n c (t * ω ^ (i : ℕ)) := by
  rw [dft, polyEvalV_scale]

theorem mem_missingIdx (n : ℕ) (S : Fin n → Option F) (i : Fin n) :
    i ∈ missingIdx n S ↔ S i = none := by
  rw [missingIdx, List.mem_filter]
  simp [List.mem_finRange, Option.isNone_iff_eq_none]

theorem length_zListOf (n : ℕ) (ω : F) (S : Fin n → Option F) :
    (zListOf n ω S).length = (missingIdx n S).length + 1 := by
  rw [zListOf, length_zpolyL, List.length_map]

theorem evalList_zListOf (n : ℕ) (ω : F) (S : Fin n → Option F) (x : F) :
    evalList (zListOf n ω S) x
      = ((missingIdx n S).map (fun i : Fin n => x - ω ^ (i : ℕ))).prod := by
  rw [zListOf, evalList_zpolyL, List.map_map]
  rfl

theorem length_pHalfOf (n : ℕ) (p : Fin n → F) : (pHalfOf n p).length = n / 2 := by
  rw [pHalfOf, List.length_map, List.length_range]

theorem getD_pHalfOf (n : ℕ) (p : Fin n → F) (j : ℕ) :
    (pHalfOf n p).getD j 0
      = if j < n / 2 then (if h : j < n then p ⟨j, h⟩ else 0) else 0 := by
  by_cases hj : j < n / 2
  · rw [if_pos hj, pHalfOf, List.getD_eq_getElem?_getD, List.getElem?_map,
      List.getElem?_range hj]
    rfl
  · rw [if_neg hj, List.getD_eq_default]
    rw [length_pHalfOf]
    omega

theorem evalList_pHalfOf (n : ℕ) (p : Fin n → F)
    (hp : ∀ j : Fin n, n / 2 ≤ (j : ℕ) → p j = 0) (x : F) :
    evalList (pHalfOf n p) x = polyEvalV n p x := by
  rw [← evalList_eq_sum_range (pHalfOf n p) n (by rw [length_pHalfOf]; omega) x,
    polyEvalV_eq_sum_range]
  refine Finset.sum_congr rfl (fun j hj => ?_)
  have hjn : j < n := Finset.mem_range.mp hj
  rw [getD_pHalfOf]
  by_cases hj2 : j < n / 2
  · rw [if_pos hj2]
  · rw [if_neg hj2, dif_pos hjn, hp ⟨j, hjn⟩ (by simpa using Nat.le_of_not_lt hj2)]

theorem evalList_prodListOf (n : ℕ) (ω : F) (S : Fin n → Option F) (p : Fin n → F)
    (hp : ∀ j : Fin n, n / 2 ≤ (j : ℕ) → p j = 0) (x : F) :
    evalList (prodListOf n ω S p) x = polyEvalV n p x * evalList (zListOf n ω S) x := by
  rw [prodListOf, evalList_polyMulL, evalList_pHalfOf n p hp]

theorem length_prodListOf (n : ℕ) (ω : F) (S : Fin n → Option F) (p : Fin n → F)
    (hmiss : (missingIdx n S).length ≤ n / 2) :
    (prodListOf n ω S p).length ≤ n := by
  have hz : zListOf n ω S ≠ [] := by
    intro h
    have := length_zListOf n ω S
    rw [h] at this
    simp at this
  have := length_polyMulL (pHalfOf n p) (zListOf n ω S) hz
  rw [length_pHalfOf, length_zListOf] at this
  rw [prodListOf]
  omega

theorem polyEvalV_prodVecOf (n : ℕ) (ω : F) (S : Fin n → Option F) (p : Fin n → F)
    (hmiss : (missingIdx n S).length ≤ n / 2) (x : F) :
    polyEvalV n (prodVecOf n ω S p) x = evalList (prodListOf n ω S p) x := by
  exact polyEvalV_getD n (prodListOf n ω S p) (length_prodListOf n ω S p hmiss) x

theorem zCoset_eval (n : ℕ) (ω kShift : F) (S : Fin n → Option F)
    (hlen : (zListOf n ω S).length ≤ n) (i : Fin n) :
    zCosetOf n ω kShift S i = evalList (zListOf n ω S) (kShift * ω ^ (i : ℕ)) := by
  rw [zCosetOf, dft_scale]
  exact polyEvalV_getD n (zListOf n ω S) hlen (kShift * ω ^ (i : ℕ))

theorem zEval_eval (n : ℕ) (ω : F) (S : Fin n → Option F)
    (hlen : (zListOf n ω S).length ≤ n) (i : Fin n) :
    dft n ω (zVecOf n ω S) i = evalList (zListOf n ω S) (ω ^ (i : ℕ)) := by
  rw [dft]
  exact polyEvalV_getD n (zListOf n ω S) hlen (ω ^ (i : ℕ))

/-- Claim C1: for every width `n = 2^κ`, every coefficient vector `p` whose
entire second half is zero, and every partial evaluation vector `S` obtained
from the forward FFT of `p` by erasing at most `n/2` positions,
`RecoverPolyFromSamples` succeeds and returns the full evaluation vector
`FFT(p)`, and the inverse FFT of the recovered vector is `p` again —
including the zero second half (which hypothesis `hp` records).  `ω` is a
primitive `n`-th root of unity and `kShift` the coset generator; the BN254
scalar field of the implementation satisfies all the field-side hypotheses. -/
theorem c1_recoverPolyFromSamples_correct [DecidableEq F]
    (n κ : ℕ) (hnpow : n = 2 ^ κ) (ω kShift : F)
    (hω : ω ^ n = 1)
    (hprimF : ∀ d : Fin n, 0 < (d : ℕ) → ω ^ (d : ℕ) ≠ 1)
    (hchar : (n : F) ≠ 0)
    (hk0 : kShift ≠ 0) (hkn : kShift ^ n ≠ 1)
    (p : Fin n → F) (hp : ∀ j : Fin n, n / 2 ≤ (j : ℕ) → p j = 0)
    (S : Fin n → Option F)
    (hS : ∀ i : Fin n, S i = none ∨ S i = some (dft n ω p i))
    (hmiss : (missingIdx n S).length ≤ n / 2) :
    recoverPolyFromSamples n ω kShift S = some (dft n ω p) ∧
      ∀ j : Fin n, idft n ω (dft n ω p) j = p j := by
  have hn : 0 < n := by rw [hnpow]; exact Nat.pos_pow_of_pos κ (by norm_num)
  have hprim : ∀ d : ℕ, 0 < d → d < n → ω ^ d ≠ 1 :=
    fun d hd hdn => hprimF ⟨d, hdn⟩ hd
  refine ⟨?_, fun j => idft_dft hn hω hprim hchar p j⟩
  by_cases h0 : (missingIdx n S).length = 0
  · rw [recoverPolyFromSamples, if_pos h0]
    congr 1
    funext i
    rcases hS i with hnone | hsome
    · exfalso
      have : i ∈ missingIdx n S := (mem_missingIdx n S i).mpr hnone
      rw [List.length_eq_zero.mp h0] at this
      exact List.not_mem_nil i this
    · rw [hsome]
      rfl
  · have h1 : 1 ≤ (missingIdx n S).length := Nat.one_le_iff_ne_zero.mpr h0
    have hn2 : 2 ≤ n := by omega
    have hzlen : (zListOf n ω S).length ≤ n := by
      rw [length_zListOf]
      omega
    -- the zero polynomial vanishes exactly on the missing set (spec 4.C)
    have hzero_missing : ∀ i : Fin n, S i = none → dft n ω (zVecOf n ω S) i = 0 := by
      intro i hi
      rw [zEval_eval n ω S hzlen, evalList_zListOf]
      refine List.prod_eq_zero ?_
      refine List.mem_map.mpr ⟨i, (mem_missingIdx n S i).mpr hi, ?_⟩
      rw [sub_self]
    -- the product polynomial p·Z evaluates multiplicatively everywhere
    have hQ : ∀ x : F, polyEvalV n (prodVecOf n ω S p) x
        = polyEvalV n p x * evalList (zListOf n ω S) x := by
      intro x
      rw [polyEvalV_prodVecOf n ω S p hmiss, evalList_prodListOf n ω S p hp]
    -- step 3: P'_eval is the forward FFT of the product polynomial
    have hPE : pPrimeEvalOf n ω S = dft n ω (prodVecOf n ω S p) := by
      funext i
      have hR : dft n ω (prodVecOf n ω S p) i
          = polyEvalV n p (ω ^ (i : ℕ)) * evalList (zListOf n ω S) (ω ^ (i : ℕ)) := by
        rw [dft, hQ]
      have hL : pPrimeEvalOf n ω S i
          = (S i).getD 0 * evalList (zListOf n ω S) (ω ^ (i : ℕ)) := by
        rw [pPrimeEvalOf, zEval_eval n ω S hzlen]
      rw [hL, hR]
      rcases hS i with hnone | hsome
      · have hz0 : evalList (zListOf n ω S) (ω ^ (i : ℕ)) = 0 := by
          rw [← zEval_eval n ω S hzlen]
          exact hzero_missing i hnone
        rw [hnone, hz0, mul_zero, mul_zero]
      · rw [hsome]
        rfl
    -- hence the inverse FFT returns exactly the product coefficients
    have hPC : ∀ j : Fin n, pPrimeCoeffsOf n ω S j = prodVecOf n ω S p j := by
      intro j
      rw [pPrimeCoeffsOf, hPE]
      exact idft_dft hn hω hprim hchar _ j
    -- step 4: both coset vectors are evaluations at kShift·ω^i
    have hPCoset : ∀ i : Fin n, pPrimeCosetOf n ω kShift S i
        = polyEvalV n p (kShift * ω ^ (i : ℕ))
            * evalList (zListOf n ω S) (kShift * ω ^ (i : ℕ)) := by
      intro i
      rw [pPrimeCosetOf]
      have : (fun j : Fin n => pPrimeCoeffsOf n ω S j * kShift ^ (j : ℕ))
          = (fun j : Fin n => prodVecOf n ω S p j * kShift ^ (j : ℕ)) := by
        funext j
        rw [hPC]
      rw [this, dft_scale, hQ]
    have hzc : ∀ i : Fin n, zCosetOf n ω kShift S i
        = evalList (zListOf n ω S) (kShift * ω ^ (i : ℕ)) :=
      zCoset_eval n ω kShift S hzlen
    -- step 5: the coset avoids all roots of Z, so no division by zero
    have hzcne : ∀ i : Fin n, zCosetOf n ω kShift S i ≠ 0 := by
      intro i
      rw [hzc, evalList_zListOf]
      refine List.prod_ne_zero ?_
      intro hmem
      rcases List.mem_map.mp hmem with ⟨m, _, hm⟩
      have heq : kShift * ω ^ (i : ℕ) = ω ^ (m : ℕ) := sub_eq_zero.mp hm
      have : kShift ^ n = 1 := by
        have hpow := congrArg (fun y => y ^ n) heq
        simp only [mul_pow, ← pow_mul] at hpow
        rw [Nat.mul_comm (i : ℕ) n, Nat.mul_comm (m : ℕ) n, pow_mul, pow_mul, hω,
          one_pow, one_pow, mul_one] at hpow
        exact hpow
      exact hkn this
    -- steps 5–6: division recovers the coset evaluations of p itself
    have hdc : ∀ i : Fin n, dCosetOf n ω kShift S i
        = dft n ω (fun j : Fin n => p j * kShift ^ (j : ℕ)) i := by
      intro i
      rw [dCosetOf, hPCoset, hzc, mul_div_cancel_right₀ _ (by
        rw [← hzc i]; exact hzcne i), dft_scale]
    -- step 6: undo the coset shift
    have hdcoeffs : ∀ j : Fin n, dCoeffsOf n ω kShift S j = p j := by
      intro j
      rw [dCoeffsOf]
      have : dCosetOf n ω kShift S = dft n ω (fun j : Fin n => p j * kShift ^ (j : ℕ)) :=
        funext hdc
      rw [this, idft_dft hn hω hprim hchar _ j, mul_assoc, ← mul_pow,
        mul_inv_cancel₀ hk0, one_pow, mul_one]
    -- step 7: the recovered vector is the original full evaluation vector
    have hrec : recoveredEvalOf n ω kShift S = dft n ω p := by
      rw [recoveredEvalOf, show dCoeffsOf n ω kShift S = p from funext hdcoeffs]
    have hcons : ∀ i : Fin n, (S i).isSome = true →
        (S i).getD 0 = recoveredEvalOf n ω kShift S i := by
      intro i hi
      rcases hS i with hnone | hsome
      · rw [hnone] at hi
        simp at hi
      · rw [hsome, hrec]
        rfl
    rw [recoverPolyFromSamples, if_neg h0, if_neg (not_lt.mpr hmiss),
      if_neg (by
        intro hex
        rcases hex with ⟨i, hi⟩
        exact hzcne i hi), if_pos hcons, hrec]

theorem c1_witness :
    (4 : ℕ) = 2 ^ 2 ∧ (5 : ZMod 13) ^ 4 = 1 ∧ (2 : ZMod 13) ^ 4 ≠ 1 ∧
    (missingIdx 4 c1S).length ≤ 4 / 2 ∧
    recoverPolyFromSamples 4 (5 : ZMod 13) 2 c1S = some (dft 4 5 c1p) :=
  ⟨by decide, by decide, by decide, by decide,
    (c1_recoverPolyFromSamples_correct 4 2 (by decide) 5 2 (by decide) (by decide)
      (by decide) (by decide) (by decide) c1p (by decide) c1S (by decide)
      (by decide)).1⟩

end EigenDA.Recovery

namespace EigenDA.Streamer

theorem collectPending_sublist (orc : ParamOracle) (st : EncodedBlobStore)
    (b : BlobKey) (rb : ℕ) :
    ∀ (sps : List SecurityParam) (l : List QuorumID),
      collectPending orc st b rb sps = some l →
      l.Sublist (sps.map (fun sp => sp.quorumID)) := by
  intro sps
  induction sps with
  | nil =>
    intro l h
    simp [collectPending] at h
    simp [h]
  | cons sp rest ih =>
    intro l h
    rw [collectPending] at h
    by_cases h1 : hasEncodingRequested st b sp.quorumID rb
    · rw [if_pos h1] at h
      exact (ih l h).trans (List.sublist_cons_self _ _)
    · rw [if_neg h1] at h
      cases h2 : orc.minChunkLen b sp.quorumID with
      | none =>
        rw [h2] at h
        exact (ih l h).trans (List.sublist_cons_self _ _)
      | some v =>
        rw [h2] at h
        cases h3 : orc.encParams b sp.quorumID with
        | none =>
          rw [h3] at h
          exact (ih l h).trans (List.sublist_cons_self _ _)
        | some pr =>
          rw [h3] at h
          by_cases h4 : orc.validateOK b sp.quorumID
          · rw [if_pos h4] at h
            cases h5 : collectPending orc st b rb rest with
            | none => rw [h5] at h; simp at h
            | some l2 =>
              rw [h5] at h
              simp only [Option.map_some] at h
              cases h
              exact List.cons_sublist_cons.mpr (ih l2 h5)
          · rw [if_neg h4] at h
            simp at h

theorem collectPending_not_requested (orc : ParamOracle) (st : EncodedBlobStore)
    (b : BlobKey) (rb : ℕ) :
    ∀ (sps : List SecurityParam) (l : List QuorumID) (q : QuorumID),
      collectPending orc st b rb sps = some l → q ∈ l →
      hasEncodingRequested st b q rb = false := by
  intro sps
  induction sps with
  | nil =>
    intro l q h hq
    simp [collectPending] at h
    rw [h] at hq
    simp at hq
  | cons sp rest ih =>
    intro l q h hq
    rw [collectPending] at h
    by_cases h1 : hasEncodingRequested st b sp.quorumID rb
    · rw [if_pos h1] at h
      exact ih l q h hq
    · rw [if_neg h1] at h
      cases h2 : orc.minChunkLen b sp.quorumID with
      | none =>
        rw [h2] at h
        exact ih l q h hq
      | some v =>
        rw [h2] at h
        cases h3 : orc.encParams b sp.quorumID with
        | none =>
          rw [h3] at h
          exact ih l q h hq
        | some pr =>
          rw [h3] at h
          by_cases h4 : orc.validateOK b sp.quorumID
          · rw [if_pos h4] at h
            cases h5 : collectPending orc st b rb rest with
            | none => rw [h5] at h; simp at h
            | some l2 =>
              rw [h5] at h
              simp only [Option.map_some] at h
              cases h
              rcases List.mem_cons.mp hq with hq1 | hq2
              · rw [hq1]
                exact Bool.not_eq_true _ ▸ (by simpa using h1)
              · exact ih l2 q h5 hq2
          · rw [if_neg h4] at h
            simp at h

end EigenDA.Streamer
namespace EigenDA.Streamer

theorem has_put_mono (st : EncodedBlobStore) (b b2 : BlobKey) (q q2 : QuorumID)
    (rb : ℕ) (h : hasEncodingRequested st b q rb = true) :
    hasEncodingRequested (putEncodingRequest st b2 q2) b q rb = true := by
  rw [hasEncodingRequested] at h
  rw [hasEncodingRequested, putEncodingRequest]
  simp only [List.contains_cons]
  rcases Bool.or_eq_true_iff.mp h with h1 | h1
  · rw [h1]
    simp
  · rw [h1]
    simp

theorem has_put_self (st : EncodedBlobStore) (b : BlobKey) (q : QuorumID)
    (rb : ℕ) : hasEncodingRequested (putEncodingRequest st b q) b q rb = true := by
  rw [hasEncodingRequested, putEncodingRequest]
  simp

theorem has_foldPuts_mono (b2 : BlobKey) (b : BlobKey) (q : QuorumID) (rb : ℕ) :
    ∀ (pending : List QuorumID) (st : EncodedBlobStore),
      hasEncodingRequested st b q rb = true →
      hasEncodingRequested
        (pending.foldl (fun s q2 => putEncodingRequest s b2 q2) st) b q rb = true := by
  intro pending
  induction pending with
  | nil => intro st h; exact h
  | cons p rest ih =>
    intro st h
    exact ih _ (has_put_mono st b b2 q p rb h)

theorem has_foldPuts_mem (b : BlobKey) (q : QuorumID) (rb : ℕ) :
    ∀ (pending : List QuorumID) (st : EncodedBlobStore), q ∈ pending →
      hasEncodingRequested
        (pending.foldl (fun s q2 => putEncodingRequest s b q2) st) b q rb = true := by
  intro pending
  induction pending with
  | nil => intro st h; simp at h
  | cons p rest ih =>
    intro st h
    rcases List.mem_cons.mp h with h1 | h2
    · subst h1
      exact has_foldPuts_mono b b q rb rest _ (has_put_self st b q rb)
    · exact ih _ h2

theorem jobCount_append (l1 l2 : List (BlobKey × QuorumID)) (b : BlobKey)
    (q : QuorumID) : jobCount (l1 ++ l2) b q = jobCount l1 b q + jobCount l2 b q := by
  rw [jobCount, jobCount, jobCount, List.countP_append]

theorem jobCount_eq_zero (l : List (BlobKey × QuorumID)) (b : BlobKey)
    (q : QuorumID) (h : (b, q) ∉ l) : jobCount l b q = 0 := by
  rw [jobCount, List.countP_eq_zero]
  intro j hj
  simp only [beq_iff_eq]
  intro hh
  rw [hh] at hj
  exact h hj

theorem jobCount_pos_mem (l : List (BlobKey × QuorumID)) (b : BlobKey)
    (q : QuorumID) (h : 1 ≤ jobCount l b q) : (b, q) ∈ l := by
  by_contra hmem
  rw [jobCount_eq_zero l b q hmem] at h
  omega

theorem jobCount_map_nodup (b : BlobKey) (q : QuorumID) (bk : BlobKey) :
    ∀ pending : List QuorumID, pending.Nodup →
      jobCount (pending.map (fun q2 => (bk, q2))) b q ≤ 1 := by
  intro pending
  induction pending with
  | nil =>
    intro hpn
    simp [jobCount]
  | cons p rest ih =>
    intro hpn
    rw [List.map_cons, jobCount, List.countP_cons]
    rcases List.nodup_cons.mp hpn with ⟨hpmem, hrest⟩
    by_cases hpq : ((bk, p) == (b, q)) = true
    · have hq : p = q := congrArg Prod.snd (beq_iff_eq.mp hpq)
      have hz : jobCount (rest.map (fun q2 => (bk, q2))) b q = 0 := by
        refine jobCount_eq_zero _ b q ?_
        intro hmem
        rcases List.mem_map.mp hmem with ⟨q2, hq2mem, hq2⟩
        have : q2 = q := congrArg Prod.snd hq2
        rw [this, ← hq] at hq2mem
        exact hpmem hq2mem
      rw [jobCount] at hz
      rw [hz, if_pos hpq]
    · rw [if_neg hpq]
      have := ih hrest
      rw [jobCount] at this
      omega

theorem forBlob_jobs_count (orc : ParamOracle) (st : EncodedBlobStore)
    (m : BlobMetadata) (rb : ℕ) (b : BlobKey) (q : QuorumID)
    (hnodup : (m.securityParams.map (fun sp => sp.quorumID)).Nodup) :
    jobCount (requestEncodingForBlob orc st m rb).jobs b q ≤ 1 := by
  rw [requestEncodingForBlob]
  cases h : collectPending orc st m.blobKey rb m.securityParams with
  | none => simp [jobCount]
  | some pending =>
    simp only
    have hpn : pending.Nodup :=
      (collectPending_sublist orc st m.blobKey rb m.securityParams pending h).nodup hnodup
    exact jobCount_map_nodup b q m.blobKey pending hpn

theorem forBlob_skip (orc : ParamOracle) (st : EncodedBlobStore)
    (m : BlobMetadata) (rb : ℕ) (b : BlobKey) (q : QuorumID)
    (h : hasEncodingRequested st b q rb = true) :
    (b, q) ∉ (requestEncodingForBlob orc st m rb).jobs := by
  rw [requestEncodingForBlob]
  cases hc : collectPending orc st m.blobKey rb m.securityParams with
  | none => simp
  | some pending =>
    simp only
    intro hmem
    rcases List.mem_map.mp hmem with ⟨q2, hq2mem, hq2⟩
    have hb : m.blobKey = b := congrArg Prod.fst hq2
    have hqq : q2 = q := congrArg Prod.snd hq2
    subst hb
    subst hqq
    have := collectPending_not_requested orc st m.blobKey rb m.securityParams
      pending q2 hc hq2mem
    rw [h] at this
    cases this

theorem forBlob_mem_store (orc : ParamOracle) (st : EncodedBlobStore)
    (m : BlobMetadata) (rb : ℕ) (b : BlobKey) (q : QuorumID)
    (h : (b, q) ∈ (requestEncodingForBlob orc st m rb).jobs) :
    hasEncodingRequested (requestEncodingForBlob orc st m rb).store b q rb = true := by
  cases hc : collectPending orc st m.blobKey rb m.securityParams with
  | none =>
    rw [requestEncodingForBlob, hc] at h
    simp at h
  | some pending =>
    rw [requestEncodingForBlob, hc] at h ⊢
    have h2 : (b, q) ∈ pending.map (fun q2 => (m.blobKey, q2)) := h
    rcases List.mem_map.mp h2 with ⟨q2, hq2mem, hq2⟩
    have hb : m.blobKey = b := congrArg Prod.fst hq2
    have hqq : q2 = q := congrArg Prod.snd hq2
    subst hb
    subst hqq
    show hasEncodingRequested
      (pending.foldl (fun s q2 => putEncodingRequest s m.blobKey q2) st)
      m.blobKey q2 rb = true
    exact has_foldPuts_mem m.blobKey q2 rb pending st hq2mem

theorem forBlob_store_mono (orc : ParamOracle) (st : EncodedBlobStore)
    (m : BlobMetadata) (rb : ℕ) (b : BlobKey) (q : QuorumID)
    (h : hasEncodingRequested st b q rb = true) :
    hasEncodingRequested (requestEncodingForBlob orc st m rb).store b q rb = true := by
  rw [requestEncodingForBlob]
  cases hc : collectPending orc st m.blobKey rb m.securityParams with
  | none => exact h
  | some pending =>
    simp only
    exact has_foldPuts_mono m.blobKey b q rb pending st h

end EigenDA.Streamer
namespace EigenDA.Streamer

theorem fold_jobs_invariant (orc : ParamOracle) (rb : ℕ) (b : BlobKey)
    (q : QuorumID) :
    ∀ (ms : List BlobMetadata) (st : EncodedBlobStore)
      (jobs0 : List (BlobKey × QuorumID)),
      (∀ m ∈ ms, (m.securityParams.map (fun sp => sp.quorumID)).Nodup) →
      jobCount jobs0 b q ≤ 1 →
      (1 ≤ jobCount jobs0 b q → hasEncodingRequested st b q rb = true) →
      jobCount (ms.foldl (fun acc m =>
        let r := requestEncodingForBlob orc acc.2 m rb
        (acc.1 ++ r.jobs, r.store)) (jobs0, st)).1 b q ≤ 1 := by
  intro ms
  induction ms with
  | nil =>
    intro st jobs0 _ h1 _
    exact h1
  | cons m rest ih =>
    intro st jobs0 hnodup h1 h2
    rw [List.foldl_cons]
    have hmn : (m.securityParams.map (fun sp => sp.quorumID)).Nodup :=
      hnodup m (List.mem_cons_self m rest)
    have hrest : ∀ m2 ∈ rest, (m2.securityParams.map (fun sp => sp.quorumID)).Nodup :=
      fun m2 hm2 => hnodup m2 (List.mem_cons_of_mem m hm2)
    refine ih (requestEncodingForBlob orc st m rb).store
      (jobs0 ++ (requestEncodingForBlob orc st m rb).jobs) hrest ?_ ?_
    · rw [jobCount_append]
      by_cases hh : hasEncodingRequested st b q rb = true
      · have hz : jobCount (requestEncodingForBlob orc st m rb).jobs b q = 0 :=
          jobCount_eq_zero _ b q (forBlob_skip orc st m rb b q hh)
        omega
      · have hz : jobCount jobs0 b q = 0 := by
          by_contra hc
          exact hh (h2 (by omega))
        have := forBlob_jobs_count orc st m rb b q hmn
        omega
    · rw [jobCount_append]
      intro hcount
      by_cases hj : 1 ≤ jobCount (requestEncodingForBlob orc st m rb).jobs b q
      · exact forBlob_mem_store orc st m rb b q (jobCount_pos_mem _ b q hj)
      · have : 1 ≤ jobCount jobs0 b q := by omega
        exact forBlob_store_mono orc st m rb b q (h2 this)

/-- Claim C2: for every blob key and quorum there is at most one outstanding
encoding request per tick — within one RequestEncoding tick, dedupRequests
drops a metadata only when every one of its quorums is already requested at
the current reference block, RequestEncodingForBlob re-checks each quorum
individually with HasEncodingRequested, and each issued job is registered
with PutEncodingRequest, so presenting the same (blob, quorum) twice in one
tick (in particular via duplicate metadatas) issues at most one encode job
for it.  The hypothesis records the data-model invariant that one metadata
lists each quorum at most once (SecurityParams is keyed by quorum). -/
theorem c2_one_job_per_blob_quorum_per_tick (orc : ParamOracle)
    (st : EncodedBlobStore) (metas : List BlobMetadata) (rb cap : ℕ)
    (b : BlobKey) (q : QuorumID)
    (hnodup : ∀ m ∈ metas, (m.securityParams.map (fun sp => sp.quorumID)).Nodup) :
    jobCount (requestEncoding orc st metas rb cap).1 b q ≤ 1 := by
  rw [requestEncoding]
  refine fold_jobs_invariant orc rb b q _ st [] ?_ ?_ ?_
  · intro m hm
    refine hnodup m ?_
    have h1 : m ∈ dedupRequests st metas rb :=
      (List.take_sublist cap (dedupRequests st metas rb)).subset hm
    rw [dedupRequests] at h1
    exact (List.mem_filter.mp h1).1
  · simp [jobCount]
  · intro h
    simp [jobCount] at h

/-- Witness for C2: the same (blob 7, quorum 0) metadata submitted twice in
one tick issues at most one encode job. -/
theorem c2_witness :
    (∀ m ∈ [wMeta, wMeta], (m.securityParams.map (fun sp => sp.quorumID)).Nodup) ∧
    jobCount (requestEncoding wOracleOK wStoreEmpty [wMeta, wMeta] 10 5).1 7 0 ≤ 1 :=
  ⟨by decide,
    c2_one_job_per_blob_quorum_per_tick wOracleOK wStoreEmpty [wMeta, wMeta]
      10 5 7 0 (by decide)⟩

end EigenDA.Streamer
namespace EigenDA.Streamer

/-- Counterexample for C3: the claim that PutEncodingRequest precedes any
possible job completion is false on the code — Pool.Submit (line 333) runs
before PutEncodingRequest (line 356), so the interleaving `wBadTrace`
(submit, complete, put), which is valid because completion only needs the
prior submit, completes the job with no preceding registration. -/
theorem c3_counterexample :
    ¬ (∀ T : List Event,
        ValidInterleaving (forBlobTrace wOracleOK wStoreEmpty wMeta 10) T →
        ∀ (i : ℕ) (b : BlobKey) (q : QuorumID),
          T[i]? = some (Event.complete b q) →
          ∃ j : ℕ, j < i ∧ T[j]? = some (Event.act (ReqAction.put b q))) := by
  intro h
  have hvalid : ValidInterleaving (forBlobTrace wOracleOK wStoreEmpty wMeta 10)
      wBadTrace := by
    constructor
    · decide
    · intro i b q hi
      match i with
      | 0 =>
        rw [show wBadTrace[0]? = some (Event.act (ReqAction.submit 7 0)) from rfl] at hi
        exact Event.noConfusion (Option.some.inj hi)
      | 1 =>
        rw [show wBadTrace[1]? = some (Event.complete 7 0) from rfl] at hi
        have h1 := Option.some.inj hi
        injection h1 with hb hq
        subst hb
        subst hq
        exact ⟨0, by omega, rfl⟩
      | 2 =>
        rw [show wBadTrace[2]? = some (Event.act (ReqAction.put 7 0)) from rfl] at hi
        exact Event.noConfusion (Option.some.inj hi)
      | n + 3 =>
        rw [show wBadTrace[n + 3]? = none from rfl] at hi
        exact Option.noConfusion hi
  rcases h wBadTrace hvalid 1 7 0 rfl with ⟨j, hj, hput⟩
  have hj0 : j = 0 := by omega
  subst hj0
  rw [show wBadTrace[0]? = some (Event.act (ReqAction.submit 7 0)) from rfl] at hput
  have h1 := Option.some.inj hput
  injection h1 with h2
  exact ReqAction.noConfusion h2

theorem requesterTrace_put_after_submit (bk : BlobKey) :
    ∀ (pending : List QuorumID) (i : ℕ) (b : BlobKey) (q : QuorumID),
      (requesterTrace bk pending)[i]? = some (ReqAction.submit b q) →
      (requesterTrace bk pending)[i + 1]? = some (ReqAction.put b q) := by
  intro pending
  induction pending with
  | nil =>
    intro i b q h
    rw [show (requesterTrace bk [])[i]? = none from by
      rw [requesterTrace]
      simp] at h
    exact Option.noConfusion h
  | cons p rest ih =>
    intro i b q h
    have hunfold : requesterTrace bk (p :: rest)
        = ReqAction.submit bk p :: ReqAction.put bk p :: requesterTrace bk rest := by
      rw [requesterTrace, requesterTrace]
      rfl
    rw [hunfold] at h ⊢
    match i with
    | 0 =>
      rw [List.getElem?_cons_zero] at h
      have h1 := Option.some.inj h
      injection h1 with hb hq
      subst hb
      subst hq
      rw [List.getElem?_cons_succ, List.getElem?_cons_zero]
    | 1 =>
      rw [List.getElem?_cons_succ, List.getElem?_cons_zero] at h
      have h1 := Option.some.inj h
      exact ReqAction.noConfusion h1
    | n + 2 =>
      rw [List.getElem?_cons_succ, List.getElem?_cons_succ] at h
      rw [List.getElem?_cons_succ, List.getElem?_cons_succ]
      exact ih n b q h

/-- Claim C3, amended: for every job issued by RequestEncodingForBlob, the
PutEncodingRequest registration is the very next requester action after the
Pool.Submit of that job (same loop iteration, before any later submission);
because Pool.Submit precedes PutEncodingRequest, the code does not guarantee
that the registration is visible before the submitted job completes (see the
counterexample). -/
theorem c3_put_immediately_after_submit (orc : ParamOracle)
    (st : EncodedBlobStore) (meta : BlobMetadata) (rb : ℕ) (i : ℕ)
    (b : BlobKey) (q : QuorumID)
    (h : (forBlobTrace orc st meta rb)[i]? = some (ReqAction.submit b q)) :
    (forBlobTrace orc st meta rb)[i + 1]? = some (ReqAction.put b q) := by
  rw [forBlobTrace] at h ⊢
  exact requesterTrace_put_after_submit meta.blobKey (pendingOf orc st meta rb) i b q h

/-- Witness for the amended C3: in the concrete trace of one issued job the
registration directly follows the submission. -/
theorem c3_witness :
    (forBlobTrace wOracleOK wStoreEmpty wMeta 10)[0]? = some (ReqAction.submit 7 0) ∧
    (forBlobTrace wOracleOK wStoreEmpty wMeta 10)[1]? = some (ReqAction.put 7 0) :=
  ⟨by decide,
    c3_put_immediately_after_submit wOracleOK wStoreEmpty wMeta 10 0 7 0 (by decide)⟩

end EigenDA.Streamer
namespace EigenDA.Streamer

theorem notifierSignals_inactive (ops : List NotifierOp)
    (h : ∀ early : Bool, NotifierOp.createBatchOp early ∉ ops) :
    notifierSignals false ops = 0 := by
  induction ops with
  | nil => rfl
  | cons op rest ih =>
    cases op with
    | process met =>
      rw [notifierSignals]
      have hstep : notifierStep false (NotifierOp.process met) = (false, false) := by
        rw [notifierStep]
        simp
      rw [hstep]
      have hrest : ∀ early : Bool, NotifierOp.createBatchOp early ∉ rest :=
        fun early hmem => h early (List.mem_cons_of_mem _ hmem)
      simp [ih hrest]
    | createBatchOp early =>
      exact absurd (List.mem_cons_self _ _) (h early)

/-- Claim C4: between any two consecutive CreateBatch calls the notifier
emits at most one signal — over any operation segment containing no
CreateBatch (starting from any `active` state, in particular the state a
CreateBatch call leaves behind), ProcessEncodedBlobs emits at most one
signal, because emitting immediately clears `active` (lines 377–382) and
only CreateBatch sets it back (lines 423–425). -/
theorem c4_at_most_one_signal_between_batches (active : Bool)
    (ops : List NotifierOp)
    (h : ∀ early : Bool, NotifierOp.createBatchOp early ∉ ops) :
    notifierSignals active ops ≤ 1 := by
  induction ops generalizing active with
  | nil => simp [notifierSignals]
  | cons op rest ih =>
    cases op with
    | process met =>
      rw [notifierSignals]
      have hrest : ∀ early : Bool, NotifierOp.createBatchOp early ∉ rest :=
        fun early hmem => h early (List.mem_cons_of_mem _ hmem)
      by_cases hma : (met && active) = true
      · have hstep : notifierStep active (NotifierOp.process met) = (true, false) := by
          rw [notifierStep, if_pos hma]
        rw [hstep]
        simp [notifierSignals_inactive rest hrest]
      · have hstep : notifierStep active (NotifierOp.process met) = (false, active) := by
          rw [notifierStep, if_neg hma]
        rw [hstep]
        simpa using ih active hrest
    | createBatchOp early =>
      exact absurd (List.mem_cons_self _ _) (h early)

/-- Witness for C4: two threshold crossings in one batch cycle emit at most
one signal. -/
theorem c4_witness :
    (∀ early : Bool,
      NotifierOp.createBatchOp early ∉ [NotifierOp.process true, NotifierOp.process true]) ∧
    notifierSignals true [NotifierOp.process true, NotifierOp.process true] ≤ 1 :=
  ⟨by decide,
    c4_at_most_one_signal_between_batches true
      [NotifierOp.process true, NotifierOp.process true] (by decide)⟩

end EigenDA.Streamer
namespace EigenDA.Streamer

/-- Claim C5: whenever CreateBatch returns a batch, the batch header carries
the reference block number held at the start of the call (line 510) and the
Merkle root that SetBatchRoot computed over the returned blob headers
(line 514), and the streamer's ReferenceBlockNumber is reset to 0 before
returning (line 519). -/
theorem c5_createBatch_success (orc : ChainOracle) (order : List BlobKey)
    (s : StreamerState) (b : Batch) (s2 : StreamerState)
    (h : createBatch orc order s = (Except.ok b, s2)) :
    b.batchHeader.referenceBlockNumber = s.referenceBlockNumber ∧
    orc.merkleRoot b.blobHeaders = Except.ok (b.batchHeader.batchRoot, b.merkleTree) ∧
    s2.referenceBlockNumber = 0 := by
  simp only [createBatch] at h
  split at h
  · split at h <;> simp at h
  · split at h
    · simp at h
    · split at h
      · simp at h
      · split at h
        · simp at h
        · rename_i bm hbm rt hrt
          injection h with h1 h2
          injection h1 with h3
          subst h3
          subst h2
          refine ⟨rfl, ?_, rfl⟩
          rw [hrt]

/-- Claim C9: CreateBatch assigns 0 to ReferenceBlockNumber only on the
successful path; on every error return — the no-encoded-results sentinel,
a getBatchMetadata failure, a SetBatchRoot failure — the field keeps the
value it had when the call started. -/
theorem c9_refblock_only_reset_on_success (orc : ChainOracle)
    (order : List BlobKey) (s : StreamerState) :
    (∀ (err : CreateBatchError) (s2 : StreamerState),
      createBatch orc order s = (Except.error err, s2) →
      s2.referenceBlockNumber = s.referenceBlockNumber) ∧
    (∀ (b : Batch) (s2 : StreamerState),
      createBatch orc order s = (Except.ok b, s2) →
      s2.referenceBlockNumber = 0) := by
  constructor
  · intro err s2 h
    simp only [createBatch] at h
    split at h
    · split at h
      all_goals
        injection h with h1 h2
        rw [← h2]
    · split at h
      · injection h with h1 h2
        rw [← h2]
      · split at h
        · injection h with h1 h2
          rw [← h2]
        · split at h
          · injection h with h1 h2
            rw [← h2]
          · injection h with h1 h2
            exact Except.noConfusion h1
  · intro b s2 h
    simp only [createBatch] at h
    split at h
    · split at h
      all_goals
        injection h with h1 h2
        exact Except.noConfusion h1
    · split at h
      · injection h with h1 h2
        exact Except.noConfusion h1
      · split at h
        · injection h with h1 h2
          exact Except.noConfusion h1
        · split at h
          · injection h with h1 h2
            exact Except.noConfusion h1
          · injection h with h1 h2
            rw [← h2]

/-- Witness for C5 at a concrete one-blob store: the run succeeds, the
returned header holds reference block 5 and root 42, and the state's
reference block is reset to 0. -/
theorem c5_witness :
    createBatch wChainOK [3] wState5 = (Except.ok wBatch5, wState5After) ∧
    wBatch5.batchHeader.referenceBlockNumber = wState5.referenceBlockNumber ∧
    wState5After.referenceBlockNumber = 0 :=
  ⟨by decide,
    (c5_createBatch_success wChainOK [3] wState5 wBatch5 wState5After (by decide)).1,
    (c5_createBatch_success wChainOK [3] wState5 wBatch5 wState5After (by decide)).2.2⟩

/-- Witness for C9 at the early-return path: the error leaves the reference
block number unchanged. -/
theorem c9_witness :
    createBatch wChainOK [] wStateZero
      = (Except.error CreateBatchError.noEncodedResults, wStateZeroAfter) ∧
    wStateZeroAfter.referenceBlockNumber = wStateZero.referenceBlockNumber :=
  ⟨by decide,
    (c9_refblock_only_reset_on_success wChainOK [] wStateZero).1
      CreateBatchError.noEncodedResults wStateZeroAfter (by decide)⟩

end EigenDA.Streamer
namespace EigenDA.Streamer

theorem collectPending_none_of_validate_fail (orc : ParamOracle)
    (st : EncodedBlobStore) (b : BlobKey) (rb : ℕ) :
    ∀ sps : List SecurityParam,
      (∃ sp ∈ sps, hasEncodingRequested st b sp.quorumID rb = false ∧
        orc.minChunkLen b sp.quorumID ≠ none ∧
        orc.encParams b sp.quorumID ≠ none ∧
        orc.validateOK b sp.quorumID = false) →
      collectPending orc st b rb sps = none := by
  intro sps
  induction sps with
  | nil =>
    intro hex
    rcases hex with ⟨sp, hmem, _⟩
    simp at hmem
  | cons sp0 rest ih =>
    intro hex
    rw [collectPending]
    rcases hex with ⟨sp, hmem, hhas, hmin, henc, hval⟩
    rcases List.mem_cons.mp hmem with hsp | hsp
    · subst hsp
      rw [if_neg (by rw [hhas]; exact Bool.false_ne_true)]
      cases hm : orc.minChunkLen b sp.quorumID with
      | none => exact absurd hm hmin
      | some v =>
        cases he : orc.encParams b sp.quorumID with
        | none => exact absurd he henc
        | some pr =>
          rw [if_neg (by rw [hval]; exact Bool.false_ne_true)]
    · have hrest : collectPending orc st b rb rest = none :=
        ih ⟨sp, hsp, hhas, hmin, henc, hval⟩
      by_cases h1 : hasEncodingRequested st b sp0.quorumID rb = true
      · rw [if_pos h1]
        exact hrest
      · rw [if_neg h1]
        cases hm : orc.minChunkLen b sp0.quorumID with
        | none => exact hrest
        | some v =>
          cases he : orc.encParams b sp0.quorumID with
          | none => exact hrest
          | some pr =>
            by_cases h4 : orc.validateOK b sp0.quorumID = true
            · rw [if_pos h4, hrest]
              rfl
            · rw [if_neg h4]

/-- Counterexample for C6: a blob whose chunk-length computation fails
(GetMinimumChunkLength returns an error) is not marked failed — the code
merely logs and `continue`s (lines 280–284), contradicting the claim that a
chunk-length computation failure marks the blob failed. -/
theorem c6_counterexample :
    wOracleChunkErr.minChunkLen 7 0 = none ∧
    hasEncodingRequested wStoreEmpty 7 0 10 = false ∧
    ¬ ((requestEncodingForBlob wOracleChunkErr wStoreEmpty wMeta 10).markedFailed = true) := by
  decide

/-- Claim C6, amended: only a ValidateEncodingParams (SRSOrder) failure on
some reachable quorum makes RequestEncodingForBlob mark the blob failed
(line 295) and return without issuing any encode job for the blob
(line 299, before the execution loop runs) — so such a blob is not retried
once MarkBlobFailed takes it out of the Processing state.  A chunk-length or
encoding-params computation failure only skips that quorum (lines 280–289)
without marking the blob failed. -/
theorem c6_validate_fail_marks_failed_no_jobs (orc : ParamOracle)
    (st : EncodedBlobStore) (meta : BlobMetadata) (rb : ℕ)
    (h : ∃ sp ∈ meta.securityParams,
      hasEncodingRequested st meta.blobKey sp.quorumID rb = false ∧
      orc.minChunkLen meta.blobKey sp.quorumID ≠ none ∧
      orc.encParams meta.blobKey sp.quorumID ≠ none ∧
      orc.validateOK meta.blobKey sp.quorumID = false) :
    (requestEncodingForBlob orc st meta rb).markedFailed = true ∧
    (requestEncodingForBlob orc st meta rb).jobs = [] := by
  have hc := collectPending_none_of_validate_fail orc st meta.blobKey rb
    meta.securityParams h
  rw [requestEncodingForBlob, hc]
  exact ⟨rfl, rfl⟩

/-- Witness for the amended C6: with a validation oracle that rejects, the
blob is marked failed and no job is issued. -/
theorem c6_witness :
    (∃ sp ∈ wMeta.securityParams,
      hasEncodingRequested wStoreEmpty wMeta.blobKey sp.quorumID 10 = false ∧
      wOracleValidateErr.minChunkLen wMeta.blobKey sp.quorumID ≠ none ∧
      wOracleValidateErr.encParams wMeta.blobKey sp.quorumID ≠ none ∧
      wOracleValidateErr.validateOK wMeta.blobKey sp.quorumID = false) ∧
    (requestEncodingForBlob wOracleValidateErr wStoreEmpty wMeta 10).markedFailed = true ∧
    (requestEncodingForBlob wOracleValidateErr wStoreEmpty wMeta 10).jobs = [] :=
  ⟨by decide,
    (c6_validate_fail_marks_failed_no_jobs wOracleValidateErr wStoreEmpty wMeta 10
      (by decide)).1,
    (c6_validate_fail_marks_failed_no_jobs wOracleValidateErr wStoreEmpty wMeta 10
      (by decide)).2⟩

end EigenDA.Streamer
namespace EigenDA.Streamer

theorem lookupA_mem {β : Type} :
    ∀ (m : List (ℕ × β)) (k : ℕ) (v : β), lookupA m k = some v → (k, v) ∈ m := by
  intro m
  induction m with
  | nil =>
    intro k v h
    simp [lookupA] at h
  | cons kv rest ih =>
    intro k v h
    rcases kv with ⟨k2, v2⟩
    rw [lookupA] at h
    by_cases hk : k = k2
    · rw [if_pos hk] at h
      have hv := Option.some.inj h
      subst hk
      subst hv
      exact List.mem_cons_self _ _
    · rw [if_neg hk] at h
      exact List.mem_cons_of_mem _ (ih k v h)

theorem mem_lookupA_of_nodup {β : Type} :
    ∀ (m : List (ℕ × β)) (k : ℕ) (v : β), (keysA m).Nodup → (k, v) ∈ m →
      lookupA m k = some v := by
  intro m
  induction m with
  | nil =>
    intro k v _ h
    simp at h
  | cons kv rest ih =>
    intro k v hnd h
    rcases kv with ⟨k2, v2⟩
    rcases List.nodup_cons.mp hnd with ⟨hk2, hrest⟩
    rw [lookupA]
    rcases List.mem_cons.mp h with h1 | h1
    · have hk : k = k2 := congrArg Prod.fst h1
      have hv : v = v2 := congrArg Prod.snd h1
      subst hk
      subst hv
      rw [if_pos rfl]
    · by_cases hk : k = k2
      · subst hk
        exact absurd (List.mem_map.mpr ⟨(k, v), h1, rfl⟩) hk2
      · rw [if_neg hk]
        exact ih k v hrest h1

theorem lookupA_none_iff {β : Type} :
    ∀ (m : List (ℕ × β)) (k : ℕ), lookupA m k = none ↔ k ∉ keysA m := by
  intro m
  induction m with
  | nil =>
    intro k
    simp [lookupA, keysA]
  | cons kv rest ih =>
    intro k
    rcases kv with ⟨k2, v2⟩
    rw [lookupA, keysA]
    by_cases hk : k = k2
    · rw [if_pos hk]
      subst hk
      simp
    · rw [if_neg hk]
      rw [keysA] at ih
      simp [hk, ih k]

theorem mem_updA {β : Type} :
    ∀ (m : List (ℕ × β)) (k k2 : ℕ) (v v2 : β),
      (k2, v2) ∈ updA m k v → (k2, v2) ∈ m ∨ (k2 = k ∧ v2 = v) := by
  intro m
  induction m with
  | nil =>
    intro k k2 v v2 h
    rw [updA] at h
    rcases List.mem_cons.mp h with h1 | h1
    · exact Or.inr ⟨congrArg Prod.fst h1, congrArg Prod.snd h1⟩
    · simp at h1
  | cons kv rest ih =>
    intro k k2 v v2 h
    rcases kv with ⟨k3, v3⟩
    rw [updA] at h
    by_cases hk : k = k3
    · rw [if_pos hk] at h
      rcases List.mem_cons.mp h with h1 | h1
      · exact Or.inr ⟨congrArg Prod.fst h1, congrArg Prod.snd h1⟩
      · exact Or.inl (List.mem_cons_of_mem _ h1)
    · rw [if_neg hk] at h
      rcases List.mem_cons.mp h with h1 | h1
      · exact Or.inl (h1 ▸ List.mem_cons_self _ _)
      · rcases ih k k2 v v2 h1 with h2 | h2
        · exact Or.inl (List.mem_cons_of_mem _ h2)
        · exact Or.inr h2

theorem keysA_cons {β : Type} (k : ℕ) (v : β) (rest : List (ℕ × β)) :
    keysA ((k, v) :: rest) = k :: keysA rest := rfl

theorem keysA_updA_nodup {β : Type} :
    ∀ (m : List (ℕ × β)) (k : ℕ) (v : β), (keysA m).Nodup →
      (keysA (updA m k v)).Nodup := by
  intro m
  induction m with
  | nil =>
    intro k v _
    simp [updA, keysA]
  | cons kv rest ih =>
    intro k v hnd
    rcases kv with ⟨k2, v2⟩
    rw [keysA_cons] at hnd
    rcases List.nodup_cons.mp hnd with ⟨hk2, hrest⟩
    rw [updA]
    by_cases hk : k = k2
    · rw [if_pos hk]
      subst hk
      rw [keysA_cons]
      exact List.nodup_cons.mpr ⟨hk2, hrest⟩
    · rw [if_neg hk]
      rw [keysA_cons]
      refine List.nodup_cons.mpr ⟨?_, ih k v hrest⟩
      intro hmem
      rcases List.mem_map.mp hmem with ⟨⟨k3, v3⟩, hmem3, hfst⟩
      rcases mem_updA rest k k3 v v3 hmem3 with h1 | h1
      · exact hk2 (List.mem_map.mpr ⟨(k3, v3), h1, hfst⟩)
      · exact hk (h1.1.symm.trans hfst)

end EigenDA.Streamer
namespace EigenDA.Streamer

theorem processAssignment_metadataByKey (r : EncodingResult) (acc : GroupAcc)
    (oa : OperatorID × Assignment) :
    (processAssignment r acc oa).metadataByKey = acc.metadataByKey := by
  simp only [processAssignment]
  split <;> rfl

theorem foldAssign_metadataByKey (r : EncodingResult) :
    ∀ (oas : List (OperatorID × Assignment)) (acc : GroupAcc),
      ((oas.foldl (processAssignment r) acc).metadataByKey = acc.metadataByKey) := by
  intro oas
  induction oas with
  | nil => intro acc; rfl
  | cons oa rest ih =>
    intro acc
    rw [List.foldl_cons, ih, processAssignment_metadataByKey]

theorem processResult_metadataByKey (acc : GroupAcc) (r : EncodingResult) :
    (processResult acc r).metadataByKey =
      if (lookupA acc.encodedBlobByKey r.metadata.blobKey).isNone then
        updA acc.metadataByKey r.metadata.blobKey r.metadata
      else acc.metadataByKey := by
  simp only [processResult]
  by_cases h : (lookupA acc.encodedBlobByKey r.metadata.blobKey).isNone = true
  · rw [if_pos h, if_pos h, foldAssign_metadataByKey]
  · rw [if_neg h, if_neg h, foldAssign_metadataByKey]

theorem groupResults_metadata_invariant (rs : List EncodingResult) :
    (keysA (groupResults rs).metadataByKey).Nodup ∧
    (∀ k : BlobKey, ∀ md : BlobMetadata,
      (k, md) ∈ (groupResults rs).metadataByKey → md.blobKey = k) := by
  rw [groupResults]
  have main : ∀ (rs2 : List EncodingResult) (acc : GroupAcc),
      (keysA acc.metadataByKey).Nodup →
      (∀ k md, (k, md) ∈ acc.metadataByKey → md.blobKey = k) →
      (keysA (rs2.foldl processResult acc).metadataByKey).Nodup ∧
      (∀ k md, (k, md) ∈ (rs2.foldl processResult acc).metadataByKey → md.blobKey = k) := by
    intro rs2
    induction rs2 with
    | nil => intro acc h1 h2; exact ⟨h1, h2⟩
    | cons r rest ih =>
      intro acc h1 h2
      rw [List.foldl_cons]
      refine ih (processResult acc r) ?_ ?_
      · rw [processResult_metadataByKey]
        by_cases h : (lookupA acc.encodedBlobByKey r.metadata.blobKey).isNone = true
        · rw [if_pos h]
          exact keysA_updA_nodup acc.metadataByKey _ _ h1
        · rw [if_neg h]
          exact h1
      · rw [processResult_metadataByKey]
        by_cases h : (lookupA acc.encodedBlobByKey r.metadata.blobKey).isNone = true
        · rw [if_pos h]
          intro k md hmem
          rcases mem_updA acc.metadataByKey r.metadata.blobKey k r.metadata md hmem with
            hm | hm
          · exact h2 k md hm
          · rw [hm.2, hm.1]
        · rw [if_neg h]
          exact h2
  exact main rs
    { encodedBlobByKey := [], blobQuorums := [], blobHeaderByKey := [],
      metadataByKey := [] }
    (by simp [keysA]) (by simp)

theorem applyQuorumInfos_metadataByKey (g : GroupAcc) :
    (applyQuorumInfos g).metadataByKey = g.metadataByKey := rfl

end EigenDA.Streamer
namespace EigenDA.Streamer

theorem metadata_lookup_blobKey (s : StreamerState) (k2 : BlobKey)
    (hk2keys : k2 ∈ keysA (filterQuorumGap (groupedOf s))) :
    ((lookupA (filterQuorumGap (groupedOf s)) k2).getD defaultMeta).blobKey = k2 := by
  cases hl : lookupA (filterQuorumGap (groupedOf s)) k2 with
  | none => exact absurd hk2keys ((lookupA_none_iff _ _).mp hl)
  | some md3 =>
    have hmem3 := lookupA_mem _ _ _ hl
    have hmem4 : (k2, md3) ∈ (groupedOf s).metadataByKey :=
      (List.mem_filter.mp hmem3).1
    rw [groupedOf, applyQuorumInfos_metadataByKey] at hmem4
    exact (groupResults_metadata_invariant _).2 k2 md3 hmem4

theorem gap_key_not_in_order (order : List BlobKey) (s : StreamerState)
    (k : BlobKey) (horder : order.Perm (createBatchKeys s))
    (hgap : ∃ md, lookupA (groupedOf s).metadataByKey k = some md ∧
      quorumCovered (groupedOf s) k md = false) :
    k ∉ order := by
  intro hmem
  have hk : k ∈ createBatchKeys s := horder.mem_iff.mp hmem
  rw [createBatchKeys] at hk
  rcases List.mem_map.mp hk with ⟨⟨k2, md2⟩, hmemf, hfst⟩
  have hk2 : k2 = k := hfst
  subst hk2
  rcases List.mem_filter.mp hmemf with ⟨hmemm, hcov⟩
  rcases hgap with ⟨md, hlook, hncov⟩
  have hnodup2 : (keysA (groupedOf s).metadataByKey).Nodup := by
    rw [groupedOf, applyQuorumInfos_metadataByKey]
    exact (groupResults_metadata_invariant _).1
  have hl2 := mem_lookupA_of_nodup (groupedOf s).metadataByKey k2 md2 hnodup2 hmemm
  rw [hlook] at hl2
  have hmd : md = md2 := Option.some.inj hl2
  rw [← hmd] at hcov
  rw [hncov] at hcov
  exact Bool.false_ne_true hcov

/-- Claim C7: a blob among the drained results whose stored result quorums
miss a requested quorum (lines 475–489) is excluded from the returned
batch — its key is not among the materialized keys, the three returned
slices are the per-key map lookups along those keys, and no returned
metadata carries the dropped blob's key. -/
theorem c7_quorum_gap_excluded (orc : ChainOracle) (order : List BlobKey)
    (s : StreamerState) (b : Batch) (s2 : StreamerState) (k : BlobKey)
    (h : createBatch orc order s = (Except.ok b, s2))
    (horder : order.Perm (createBatchKeys s))
    (hgap : ∃ md, lookupA (groupedOf s).metadataByKey k = some md ∧
      quorumCovered (groupedOf s) k md = false) :
    k ∉ order ∧
    b.encodedBlobs = order.map (fun k2 =>
      (lookupA (groupedOf s).encodedBlobByKey k2).getD []) ∧
    b.blobHeaders = order.map (fun k2 =>
      lookupA (groupedOf s).blobHeaderByKey k2) ∧
    b.blobMetadata = order.map (fun k2 =>
      (lookupA (filterQuorumGap (groupedOf s)) k2).getD defaultMeta) ∧
    (∀ md ∈ b.blobMetadata, md.blobKey ≠ k) := by
  have hnotin : k ∉ order := gap_key_not_in_order order s k horder hgap
  simp only [createBatch] at h
  split at h
  · split at h <;> simp at h
  · split at h
    · simp at h
    · split at h
      · simp at h
      · split at h
        · simp at h
        · injection h with h1 h2
          injection h1 with h3
          subst h3
          refine ⟨hnotin, rfl, rfl, rfl, ?_⟩
          intro md hmd
          have hmd2 : md ∈ order.map (fun k2 =>
              (lookupA (filterQuorumGap (groupedOf s)) k2).getD defaultMeta) := hmd
          rcases List.mem_map.mp hmd2 with ⟨k2, hk2mem, hk2⟩
          have hk2keys : k2 ∈ keysA (filterQuorumGap (groupedOf s)) := by
            have := horder.mem_iff.mp hk2mem
            rw [createBatchKeys] at this
            exact this
          rw [← hk2, metadata_lookup_blobKey s k2 hk2keys]
          intro hkk
          exact hnotin (hkk ▸ hk2mem)

/-- Claim C8, amended: the three slices CreateBatch returns are
index-aligned — they are the per-key lookups along one common key list
(the map iteration order), so for every index all three entries belong to
the blob key at that index; but that order is the Go map iteration order,
which the runtime does not fix, so two runs over identical store contents
need not produce the slices in the same order (see the counterexample). -/
theorem c8_slices_index_aligned (orc : ChainOracle) (order : List BlobKey)
    (s : StreamerState) (b : Batch) (s2 : StreamerState)
    (h : createBatch orc order s = (Except.ok b, s2))
    (horder : order.Perm (createBatchKeys s)) :
    b.encodedBlobs = order.map (fun k2 =>
      (lookupA (groupedOf s).encodedBlobByKey k2).getD []) ∧
    b.blobHeaders = order.map (fun k2 =>
      lookupA (groupedOf s).blobHeaderByKey k2) ∧
    b.blobMetadata = order.map (fun k2 =>
      (lookupA (filterQuorumGap (groupedOf s)) k2).getD defaultMeta) ∧
    ∀ (i : ℕ) (hi : i < order.length) (md : BlobMetadata),
      b.blobMetadata[i]? = some md → md.blobKey = order[i] := by
  simp only [createBatch] at h
  split at h
  · split at h <;> simp at h
  · split at h
    · simp at h
    · split at h
      · simp at h
      · split at h
        · simp at h
        · injection h with h1 h2
          injection h1 with h3
          subst h3
          refine ⟨rfl, rfl, rfl, ?_⟩
          intro i hi md hmd
          have hmd2 : (order.map (fun k2 =>
              (lookupA (filterQuorumGap (groupedOf s)) k2).getD defaultMeta))[i]?
                = some md := hmd
          rw [List.getElem?_map, List.getElem?_eq_getElem hi] at hmd2
          have hmd3 : (lookupA (filterQuorumGap (groupedOf s)) order[i]).getD
              defaultMeta = md := Option.some.inj hmd2
          have hmem : order[i] ∈ order := List.getElem_mem hi
          have hkeys : order[i] ∈ keysA (filterQuorumGap (groupedOf s)) := by
            have := horder.mem_iff.mp hmem
            rw [createBatchKeys] at this
            exact this
          rw [← hmd3, metadata_lookup_blobKey s order[i] hkeys]

/-- Counterexample for C8's determinism part: over one and the same store
contents, two runs whose map iteration orders differ (both are valid
iteration orders: permutations of the final key set) return the slices in
different orders, so CreateBatch is not deterministic across runs. -/
theorem c8_counterexample :
    [3, 8].Perm (createBatchKeys wStateTwo) ∧
    [8, 3].Perm (createBatchKeys wStateTwo) ∧
    (createBatch wChainOK [3, 8] wStateTwo).1.map (fun b => b.blobMetadata)
      ≠ (createBatch wChainOK [8, 3] wStateTwo).1.map (fun b => b.blobMetadata) := by
  decide

/-- Witness for C7 at a concrete store whose only blob requests quorums
{0, 1} but has a result only for quorum 0: the blob is dropped and the
batch is empty. -/
theorem c7_witness :
    createBatch wChainOK [] wStateGap = (Except.ok wBatchGap, wStateGapAfter) ∧
    (4 : BlobKey) ∉ ([] : List BlobKey) ∧
    wBatchGap.blobMetadata = [] :=
  ⟨by decide,
    (c7_quorum_gap_excluded wChainOK [] wStateGap wBatchGap wStateGapAfter 4
      (by decide) (by decide) ⟨wMeta4, by decide, by decide⟩).1,
    (c7_quorum_gap_excluded wChainOK [] wStateGap wBatchGap wStateGapAfter 4
      (by decide) (by decide) ⟨wMeta4, by decide, by decide⟩).2.2.2.1⟩

/-- Witness for the amended C8 at a concrete two-blob store. -/
theorem c8_witness :
    [3, 8].Perm (createBatchKeys wStateTwo) ∧
    ∀ (i : ℕ) (hi : i < ([3, 8] : List BlobKey).length) (md : BlobMetadata),
      ∀ (b : Batch) (s2 : StreamerState),
      createBatch wChainOK [3, 8] wStateTwo = (Except.ok b, s2) →
      b.blobMetadata[i]? = some md → md.blobKey = ([3, 8] : List BlobKey)[i] :=
  ⟨by decide,
    fun i hi md b s2 hrun hmd =>
      (c8_slices_index_aligned wChainOK [3, 8] wStateTwo b s2 hrun
        (by decide)).2.2.2 i hi md hmd⟩

end EigenDA.Streamer
namespace EigenDA.Encoding

/-- Claim C10: with CacheEncodedBlobs enabled, Encode keys its cache by
sha256 over the blob bytes followed by only the low-order bytes of
ChunkLength and NumChunks, so after a successful call, a second call with
the same data and parameters congruent mod 256 — even if actually different
— returns the first call's cached commitments and chunks. -/
theorem c10_cache_key_uses_low_bytes (E : EncoderModel) (c0 c1 : CacheState)
    (data : List ℕ) (p1 p2 : EncodingParams) (v : EncodedValue)
    (hen : E.cacheEnabled = true)
    (hcl : p1.chunkLength % 256 = p2.chunkLength % 256)
    (hnc : p1.numChunks % 256 = p2.numChunks % 256)
    (h1 : encode E c0 data p1 = (Except.ok v, c1)) :
    (encode E c1 data p2).1 = Except.ok v := by
  have hkey : hashBlobInput data p2 = hashBlobInput data p1 := by
    rw [hashBlobInput, hashBlobInput, hcl, hnc]
  rw [encode, if_pos hen, hkey]
  rw [encode, if_pos hen] at h1
  cases hget : cacheGet c0 (hashBlobInput data p1) with
  | some v0 =>
    rw [hget] at h1
    injection h1 with ha hb
    have hv : v0 = v := Option.some.inj (congrArg (fun r => r.toOption) ha)
    subst hv
    subst hb
    rw [hget]
  | none =>
    rw [hget] at h1
    cases himp : E.encodeImpl data p1 with
    | error e =>
      rw [himp] at h1
      injection h1 with ha hb
      exact Except.noConfusion ha
    | ok v2 =>
      rw [himp] at h1
      injection h1 with ha hb
      have hv : v2 = v := by
        injection ha
      subst hv
      rw [← hb]
      have : cacheGet { entries := (hashBlobInput data p1, v2) :: c0.entries }
          (hashBlobInput data p1) = some v2 := by
        rw [cacheGet]
        simp [List.lookup]
      rw [this]

end EigenDA.Encoding

namespace EigenDA.Encoding

/-- Witness for C10: parameters (3, 4) and (259, 516) differ but are
congruent mod 256, and the second call returns the first call's cached
value. -/
theorem c10_witness :
    encode wEncoder { entries := [] } [1, 2] wParams1
      = (Except.ok { commitments := 5, chunks := [6, 7] },
         { entries := [([1, 2, 3, 4], { commitments := 5, chunks := [6, 7] })] }) ∧
    wParams1 ≠ wParams2 ∧
    (encode wEncoder
        { entries := [([1, 2, 3, 4], { commitments := 5, chunks := [6, 7] })] }
        [1, 2] wParams2).1
      = Except.ok { commitments := 5, chunks := [6, 7] } :=
  ⟨by decide, by decide,
    c10_cache_key_uses_low_bytes wEncoder { entries := [] }
      { entries := [([1, 2, 3, 4], { commitments := 5, chunks := [6, 7] })] }
      [1, 2] wParams1 wParams2 { commitments := 5, chunks := [6, 7] }
      (by decide) (by decide) (by decide) (by decide)⟩

end EigenDA.Encoding
